import Mathlib

/-!
Verification of the SlickHash block-structured hash table (`src/lib.rs`).

The Rust structure `SlickHash<Key, Value>` is shallowly embedded for the
benchmarked case `Key = Value = u64` (keys and values are modelled as `Nat`;
all arithmetic on them in the source is equality testing and copying, so no
wrap-around modelling is required).  The two hash functions (`DefaultHasher`
and `AHasher`) are opaque quality 64-bit hashers; they are modelled as
parameters `hb ht : Nat → Nat` giving the raw 64-bit `finish()` output, and
the floating-point scaling `(hash as f64 / u64::MAX as f64 * n as f64) as usize`
is modelled exactly (see `round53` below).

Rust `Vec` indexing is modelled with `List.getD` / `List.set`; an
out-of-bounds access in Rust aborts the process, so theorems carry the
in-bounds hypotheses under which the two semantics agree.
-/

/-- Rounding of a natural number to the nearest `f64` (53 significant bits,
round-to-nearest, ties to even), returned as a natural number.  This is exact
for every `a < 2^53`; larger values are rounded to a multiple of
`2^(log2 a - 52)`.  Used to model the `as f64` conversions in
`SlickHash::hash_block_index` and `SlickHash::hash_threshold`. -/
def round53 (a : Nat) : Nat :=
  if a < 2 ^ 53 then a
  else
    let e := a.log2 - 52
    let q := a / 2 ^ e
    let r := a % 2 ^ e
    if 2 ^ (e - 1) < r ∨ (r = 2 ^ (e - 1) ∧ q % 2 = 1) then (q + 1) * 2 ^ e else q * 2 ^ e

/-- Exact value of the Rust expression
`((hash as f64 / (u64::MAX as f64)) * n as f64) as usize` for `hash = h`:
`u64::MAX as f64` is exactly `2^64`, the division is an exact power-of-two
scaling of the rounded `h`, the multiplication by (the exactly representable)
`n` rounds once more, and the cast truncates. -/
def f64ScaleMul (h n : Nat) : Nat :=
  round53 (round53 h * n) / 2 ^ 64

/-- Per-block record, from `struct SlickHashMetaData`. -/
structure SlickHashMetaData where
  offset : Nat
  gap : Nat
  threshold : Nat
deriving DecidableEq

/-- State of `struct SlickHash` for `Key = Value = u64`.  The backyard
`HashMap<Key, Value>` is modelled as an association list (first binding for a
key is the live one; the list never holds two bindings for one key because
insertion checks membership first, mirroring the `Entry` API). -/
structure SlickHash where
  main_table_size : Nat
  block_size : Nat
  number_of_blocks : Nat
  max_slick_size : Nat
  max_offset : Nat
  max_threshold : Nat
  main_table : List (Nat × Nat)
  meta_data : List SlickHashMetaData
  backyard : List (Nat × Nat)
  no_elements_in_main_table : Nat
deriving DecidableEq

/-- Result of `try_insert`, from `enum Insertion`; the carried `Nat` is the
value the returned mutable reference points at when the call returns. -/
inductive Insertion where
  | Inserted (v : Nat)
  | Occupied (v : Nat)
deriving DecidableEq

namespace SlickHash

/-- Reading `self.meta_data[i]` (out of bounds gives the all-zero record;
Rust would abort there). -/
def getMD (s : SlickHash) (i : Nat) : SlickHashMetaData :=
  s.meta_data.getD i ⟨0, 0, 0⟩

/-- Reading `self.main_table[i]` (out of bounds gives the default cell). -/
def cell (s : SlickHash) (i : Nat) : Nat × Nat :=
  s.main_table.getD i (0, 0)

/-- Replacing `self.meta_data[i]` by `f` of its current value. -/
def updMD (s : SlickHash) (i : Nat) (f : SlickHashMetaData → SlickHashMetaData) : SlickHash :=
  { s with meta_data := s.meta_data.set i (f (getMD s i)) }

/-- Function `SlickHash::block_start`. -/
def block_start (s : SlickHash) (i : Nat) : Nat :=
  s.block_size * i + (getMD s i).offset

/-- Function `SlickHash::block_end`. -/
def block_end (s : SlickHash) (i : Nat) : Nat :=
  if i = s.number_of_blocks - 1 then
    s.main_table_size - (getMD s i).gap
  else
    s.block_size * i + s.block_size + (getMD s (i + 1)).offset - (getMD s i).gap

/-- Length of `SlickHash::block_range` (the range `block_start..block_end`). -/
def blockLen (s : SlickHash) (i : Nat) : Nat :=
  block_end s i - block_start s i

/-- Contents of the slice `self.main_table[block_range]`, cell by cell. -/
def blockSlice (s : SlickHash) (i : Nat) : List (Nat × Nat) :=
  (List.range (blockLen s i)).map (fun t => cell s (block_start s i + t))

/-- Lookup in the backyard `HashMap` (`self.backyard.get(key)`). -/
def byFind (l : List (Nat × Nat)) (k : Nat) : Option Nat :=
  (l.find? (fun p => p.1 == k)).map (fun p => p.2)

/-- Removing the binding of `k` from the backyard association list. -/
def eraseFirstKey : List (Nat × Nat) → Nat → List (Nat × Nat)
  | [], _ => []
  | p :: rest, k => if p.1 == k then rest else p :: eraseFirstKey rest k

/-- The backyard `HashMap::remove_entry`: the removed pair and the remaining map. -/
def byRemove (l : List (Nat × Nat)) (k : Nat) : Option (Nat × Nat) × List (Nat × Nat) :=
  match l.find? (fun p => p.1 == k) with
  | some p => (some p, eraseFirstKey l k)
  | none => (none, l)

/-- Function `SlickHash::insert_into_backyard`: the `Entry` API returns the
existing value untouched when the key is present, and stores `v` otherwise. -/
def insert_into_backyard (s : SlickHash) (k v : Nat) : Insertion × SlickHash :=
  match byFind s.backyard k with
  | some w => (Insertion.Occupied w, s)
  | none => (Insertion.Inserted v, { s with backyard := (k, v) :: s.backyard })

/-- Function `SlickHash::hash_block_index`; `hb` stands for the 64-bit
`DefaultHasher` output on the key. -/
def hash_block_index (hb : Nat → Nat) (s : SlickHash) (key : Nat) : Nat :=
  f64ScaleMul (hb key) s.number_of_blocks

/-- Function `SlickHash::hash_threshold`; `ht` stands for the 64-bit
`AHasher` output on the key. -/
def hash_threshold (ht : Nat → Nat) (s : SlickHash) (key : Nat) : Nat :=
  f64ScaleMul (ht key) s.max_threshold

/-- Index of the first cell of block `i` whose key equals `k`, relative to
`block_start` — the search both `try_insert` and `get` perform over
`self.main_table[block_range]`. -/
def firstMatch (s : SlickHash) (i : Nat) (k : Nat) : Option Nat :=
  (List.range (blockLen s i)).find? (fun t => (cell s (block_start s i + t)).1 == k)

/-- The walk of `slide_gap_from_left` looking leftwards from the argument for
the first block with a positive gap; `none` when the walk aborts (gapless
block with zero offset, or the walk reaches block 0 and finds no gap). -/
def findDonorLeft (s : SlickHash) : Nat → Option Nat
  | 0 => if (getMD s 0).gap = 0 then none else some 0
  | n + 1 =>
    if (getMD s (n + 1)).gap = 0 then
      if (getMD s (n + 1)).offset = 0 then none else findDonorLeft s n
    else some (n + 1)

/-- One iteration of the sliding loop of `slide_gap_from_left` at block `k`:
copy the block's last cell to the cell before its first one, then shift the
block one cell to the left by decrementing its offset. -/
def slideLeftStep (s : SlickHash) (k : Nat) : SlickHash :=
  let st := block_start s k
  let en := block_end s k
  updMD { s with main_table := s.main_table.set (st - 1) (cell s (en - 1)) } k
    (fun md => { md with offset := md.offset - 1 })

/-- The sliding loop of `slide_gap_from_left`: `n` iterations at blocks
`k, k+1, …, k+n-1`. -/
def slideLeftLoop (s : SlickHash) (k : Nat) : Nat → SlickHash
  | 0 => s
  | n + 1 => slideLeftLoop (slideLeftStep s k) (k + 1) n

/-- Function `SlickHash::slide_gap_from_left`. -/
def slide_gap_from_left (s : SlickHash) (i : Nat) : Bool × SlickHash :=
  match findDonorLeft s i with
  | none => (false, s)
  | some j =>
    if (getMD s j).gap = 1 ∧ block_start s j = block_end s j then (false, s)
    else
      let s1 := updMD s j (fun md => { md with gap := md.gap - 1 })
      let s2 := slideLeftLoop s1 (j + 1) (i - j)
      (true, updMD s2 i (fun md => { md with gap := md.gap + 1 }))

/-- The walk of `slide_gap_from_right` looking rightwards for a block with a
positive gap; aborts on reaching the last block gapless or a gapless block
already at the offset cap.  `fuel` dominates the number of blocks walked. -/
def findDonorRight (s : SlickHash) : Nat → Nat → Option Nat
  | 0, _ => none
  | fuel + 1, sliding =>
    if (getMD s sliding).gap = 0 then
      if sliding = s.number_of_blocks - 1 ∨ (getMD s sliding).offset = s.max_offset then none
      else findDonorRight s fuel (sliding + 1)
    else some sliding

/-- One iteration of the descending loop of `slide_gap_from_right` at block
`k`: copy the block's first cell to the cell `block_end - 1` (the end already
reaches one cell into the next block, whose offset has been advanced), then
advance the block's offset. -/
def slideRightStep (s : SlickHash) (k : Nat) : SlickHash :=
  let st := block_start s k
  let en := block_end s k
  updMD { s with main_table := s.main_table.set (en - 1) (cell s st) } k
    (fun md => { md with offset := md.offset + 1 })

/-- The descending loop of `slide_gap_from_right`: `n` iterations at blocks
`k, k-1, …, k-n+1`. -/
def slideRightLoop (s : SlickHash) (k : Nat) : Nat → SlickHash
  | 0 => s
  | n + 1 => slideRightLoop (slideRightStep s k) (k - 1) n

/-- Function `SlickHash::slide_gap_from_right`. -/
def slide_gap_from_right (s : SlickHash) (i : Nat) : Bool × SlickHash :=
  if i = s.number_of_blocks - 1 then (false, s)
  else
    match findDonorRight s s.number_of_blocks (i + 1) with
    | none => (false, s)
    | some j =>
      if (getMD s j).offset = s.max_offset then (false, s)
      else if (getMD s j).gap = 1 ∧ block_start s j = block_end s j then (false, s)
      else
        let s1 := { s with main_table := s.main_table.set (block_end s j) (cell s (block_start s j)) }
        let s2 := updMD s1 j (fun md => { md with offset := md.offset + 1, gap := md.gap - 1 })
        let s3 := slideRightLoop s2 (j - 1) (j - 1 - i)
        (true, updMD s3 i (fun md => { md with gap := md.gap + 1 }))

/-- Function `SlickHash::there_is_no_space`; `len` is the length of the block
range the caller computed on entry.  The slide calls have side effects, hence
the returned state. -/
def there_is_no_space (s : SlickHash) (len : Nat) (i : Nat) : Bool × SlickHash :=
  if s.max_slick_size ≤ len then (true, s)
  else if 0 < (getMD s i).gap then (false, s)
  else
    match slide_gap_from_left s i with
    | (true, s') => (false, s')
    | (false, s') =>
      match slide_gap_from_right s' i with
      | (b, s'') => (!b, s'')

/-- The fold of `try_insert` computing the minimum threshold hash of the
entries of block `i`, starting from `max_threshold + 1`. -/
def minThresholdHash (ht : Nat → Nat) (s : SlickHash) (i : Nat) : Nat :=
  (blockSlice s i).foldl
    (fun m p => if hash_threshold ht s p.1 < m then hash_threshold ht s p.1 else m)
    (s.max_threshold + 1)

/-- The bumping scan of `try_insert`: starting at cell `j`, every entry whose
threshold hash is under `t'` is relocated to the backyard and the block's last
cell is compacted into its place (the cursor does not advance then); `fuel`
is the entry value of `block_end - j`, which is exactly the number of
iterations the Rust loop performs. -/
def bumpLoop (ht : Nat → Nat) : Nat → SlickHash → Nat → Nat → Nat → SlickHash
  | 0, s, _, _, _ => s
  | fuel + 1, s, bi, j, t' =>
    let be := block_end s bi
    if j < be then
      if hash_threshold ht s (cell s j).1 < t' then
        let s1 := (insert_into_backyard s (cell s j).1 (cell s j).2).2
        let s2 := { s1 with
                    no_elements_in_main_table := s1.no_elements_in_main_table - 1,
                    main_table := s1.main_table.set j (cell s1 (be - 1)) }
        bumpLoop ht fuel (updMD s2 bi (fun md => { md with gap := md.gap + 1 })) bi j t'
      else bumpLoop ht fuel s bi (j + 1) t'
    else s

/-- The no-space branch of `try_insert` (the Bumper, §4.5): raise the block's
threshold to `t'`, evict the entries under it, and report `some r` when the
incoming pair itself went to the backyard (the caller then returns `r`). -/
def bump (ht : Nat → Nat) (s : SlickHash) (block_index bstart : Nat) (k v : Nat) :
    Option Insertion × SlickHash :=
  let m0 := minThresholdHash ht s block_index
  let mth := if hash_threshold ht s k < m0 then hash_threshold ht s k else m0
  let t' := mth + 1
  let s1 := updMD s block_index (fun md => { md with threshold := t' })
  let s2 := bumpLoop ht (block_end s1 block_index - bstart) s1 block_index bstart t'
  if hash_threshold ht s2 k < t' then
    match insert_into_backyard s2 k v with
    | (r, s3) => (some r, s3)
  else (none, s2)

/-- Function `SlickHash::try_insert` (`HashTableBase` implementation).  The
found-key path reproduces the source verbatim: it returns
`Insertion::Inserted(&mut self.main_table[some_found_index].1)`, where
`some_found_index` is the index *within the block slice*. -/
def try_insert (hb ht : Nat → Nat) (s : SlickHash) (k v : Nat) : Insertion × SlickHash :=
  let block_index := hash_block_index hb s k
  let bstart := block_start s block_index
  let len := block_end s block_index - bstart
  if hash_threshold ht s k < (getMD s block_index).threshold then
    insert_into_backyard s k v
  else
    match (if 0 < len then firstMatch s block_index k else none) with
    | some t => (Insertion.Inserted (cell s t).2, s)
    | none =>
      match there_is_no_space s len block_index with
      | (noSpace, s1) =>
        match (if noSpace then bump ht s1 block_index bstart k v else (none, s1)) with
        | (some r, s2) => (r, s2)
        | (none, s2) =>
          let ce := block_end s2 block_index
          let s3 := updMD { s2 with
                            main_table := s2.main_table.set ce (k, v),
                            no_elements_in_main_table := s2.no_elements_in_main_table + 1 }
                      block_index (fun md => { md with gap := md.gap - 1 })
          (Insertion.Inserted (cell s3 ce).2, s3)

/-- Function `SlickHash::get`. -/
def get (hb ht : Nat → Nat) (s : SlickHash) (k : Nat) : Option Nat :=
  let bi := hash_block_index hb s k
  if hash_threshold ht s k < (getMD s bi).threshold then byFind s.backyard k
  else
    match firstMatch s bi k with
    | some t => some (cell s (block_start s bi + t)).2
    | none => none

/-- Function `SlickHash::remove_entry` (`HashTableRemove` implementation).
Note that after an attempted backyard removal the source still scans the main
block and lets a main-table hit overwrite the result. -/
def remove_entry (hb ht : Nat → Nat) (s : SlickHash) (k : Nat) :
    Option (Nat × Nat) × SlickHash :=
  let bi := hash_block_index hb s k
  let (rv, s0) :=
    if hash_threshold ht s k < (getMD s bi).threshold then
      match byRemove s.backyard k with
      | (r, b') => (r, { s with backyard := b' })
    else (none, s)
  match firstMatch s0 bi k with
  | some t =>
    let p := block_start s0 bi + t
    let kvp := cell s0 p
    let s1 := { s0 with main_table := s0.main_table.set p (cell s0 (block_end s0 bi - 1)) }
    let s2 := updMD s1 bi (fun md => { md with gap := md.gap + 1 })
    (some kvp, { s2 with no_elements_in_main_table := s2.no_elements_in_main_table - 1 })
  | none => (rv, s0)

/-- Function `SlickHash::new` (reached from `with_capacity`); the
`assert_eq!(main_table_size % block_size, 0)` abort is modelled as `none`. -/
def new (capacity : Nat) : Option SlickHash :=
  if capacity % 10 = 0 then
    some { main_table_size := capacity
           block_size := 10
           number_of_blocks := capacity / 10
           max_slick_size := 10 * 2
           max_offset := 10
           max_threshold := 10
           main_table := List.replicate capacity (0, 0)
           meta_data := List.replicate (capacity / 10) ⟨0, 10, 0⟩
           backyard := []
           no_elements_in_main_table := 0 }
  else none

end SlickHash

/-! ### Derived definitions, invariants and example states -/

namespace SlickHash

/-- Sum over all blocks of the length `end(i) - start(i)` of the block's
current range; the spec requires `no_elements_in_main_table` to equal it. -/
def sumLens (s : SlickHash) : Nat :=
  ∑ i ∈ Finset.range s.number_of_blocks, (block_end s i - block_start s i)

/-- Well-formedness of a table state: the hyperparameters of `SlickHash::new`,
consistent component sizes, the additive form of the geometry invariant
`start(i) ≤ end(i)` (stated without truncating subtraction), the offset cap,
the fact that an empty block keeps at least one gap cell, and the element
counter agreeing with the block lengths.  All quantifiers are bounded, so the
predicate is decidable on concrete states. -/
def WF (s : SlickHash) : Prop :=
  s.block_size = 10 ∧ s.max_slick_size = 20 ∧ s.max_offset = 10 ∧ s.max_threshold = 10 ∧
  0 < s.number_of_blocks ∧
  s.main_table_size = s.block_size * s.number_of_blocks ∧
  s.main_table.length = s.main_table_size ∧
  s.meta_data.length = s.number_of_blocks ∧
  (∀ i ∈ List.range s.number_of_blocks, (getMD s i).offset ≤ s.max_offset) ∧
  (∀ i ∈ List.range s.number_of_blocks,
    if i + 1 = s.number_of_blocks then (getMD s i).offset + (getMD s i).gap ≤ s.block_size
    else s.block_size * i + (getMD s i).offset + (getMD s i).gap ≤
      s.block_size * (i + 1) + (getMD s (i + 1)).offset) ∧
  (∀ i ∈ List.range s.number_of_blocks,
    block_start s i = block_end s i → 1 ≤ (getMD s i).gap) ∧
  s.no_elements_in_main_table = sumLens s

instance decidableWF (s : SlickHash) : Decidable (WF s) := by
  unfold WF
  exact inferInstance

/-- States reachable from construction by the public mutating operations
(`get` takes `&self` and cannot change the state).  Construction follows the
spec's precondition that the capacity be a positive multiple of the block
size. -/
inductive Reachable (hb ht : Nat → Nat) : SlickHash → Prop where
  | constructed (c : Nat) (s : SlickHash) (hpos : 0 < c) (hnew : new c = some s) :
      Reachable hb ht s
  | inserted (s : SlickHash) (k v : Nat) (hs : Reachable hb ht s) :
      Reachable hb ht (try_insert hb ht s k v).2
  | removed (s : SlickHash) (k : Nat) (hs : Reachable hb ht s) :
      Reachable hb ht (remove_entry hb ht s k).2

/-- Result of the main-table-only part of `get`: the linear scan of block
`i`'s current range, ignoring the backyard entirely. -/
def mainRegionLookup (s : SlickHash) (i : Nat) (k : Nat) : Option Nat :=
  match firstMatch s i k with
  | some t => some (cell s (block_start s i + t)).2
  | none => none

/-- Value stored for `k` before an operation, looked up in the region the
current threshold routes `k` to: the backyard when `H_t(k)` is under the home
block's threshold, the home block's range otherwise. -/
def priorStored (hb ht : Nat → Nat) (s : SlickHash) (k : Nat) : Option Nat :=
  let bi := hash_block_index hb s k
  if hash_threshold ht s k < (getMD s bi).threshold then byFind s.backyard k
  else mainRegionLookup s bi k

end SlickHash

/-- Concrete table equal to `SlickHash::new(100)`: ten empty blocks, all gap. -/
def exampleTable100 : SlickHash :=
  { main_table_size := 100, block_size := 10, number_of_blocks := 10,
    max_slick_size := 20, max_offset := 10, max_threshold := 10,
    main_table := List.replicate 100 (0, 0),
    meta_data := List.replicate 10 ⟨0, 10, 0⟩,
    backyard := [], no_elements_in_main_table := 0 }

/-- Hash model used in concrete scenarios: every key hashes to 0, which the
scaling maps to block 0 and threshold hash 0. -/
def hashZero : Nat → Nat := fun _ => 0

/-- Concrete state for the removal scenario: a fresh 100-cell table whose
block 0 carries threshold 3 (and no entries), with the pair `(7, 700)`
sitting in the backyard. -/
def exampleThresholdTable : SlickHash :=
  { exampleTable100 with
    meta_data := ⟨0, 10, 3⟩ :: List.replicate 9 ⟨0, 10, 0⟩,
    backyard := [(7, 700)] }

/-- Concrete state for the leftward-slide scenario: two blocks, block 1 full
up to its gapless, right-shifted extent (offset 1, gap 0), block 0 with five
spare gap cells to donate. -/
def exampleSlideTable : SlickHash :=
  { main_table_size := 20, block_size := 10, number_of_blocks := 2,
    max_slick_size := 20, max_offset := 10, max_threshold := 10,
    main_table := List.replicate 20 (0, 0),
    meta_data := [⟨0, 5, 0⟩, ⟨1, 0, 0⟩],
    backyard := [], no_elements_in_main_table := 15 }

/-- Concrete state for the bumping scenario: three blocks, block 0 stretched
to the full `max_slick_size` of 20 cells (offset 1 of block 1 is at the cap
10), so `there_is_no_space` answers `true` without sliding. -/
def exampleBumpTable : SlickHash :=
  { main_table_size := 30, block_size := 10, number_of_blocks := 3,
    max_slick_size := 20, max_offset := 10, max_threshold := 10,
    main_table := List.replicate 30 (0, 0),
    meta_data := [⟨0, 0, 0⟩, ⟨10, 1, 0⟩, ⟨1, 9, 0⟩],
    backyard := [], no_elements_in_main_table := 20 }

theorem round53_of_lt {a : Nat} (h : a < 2 ^ 53) : round53 a = a := by
  rw [round53, if_pos h]

theorem round53_spec (a : Nat) (h : ¬ a < 2 ^ 53) :
    round53 a =
      if 2 ^ (a.log2 - 52 - 1) < a % 2 ^ (a.log2 - 52) ∨
         (a % 2 ^ (a.log2 - 52) = 2 ^ (a.log2 - 52 - 1) ∧ (a / 2 ^ (a.log2 - 52)) % 2 = 1)
      then (a / 2 ^ (a.log2 - 52) + 1) * 2 ^ (a.log2 - 52)
      else (a / 2 ^ (a.log2 - 52)) * 2 ^ (a.log2 - 52) := by
  rw [round53, if_neg h]

theorem log2_ge_53 {a : Nat} (h : 2 ^ 53 ≤ a) : 53 ≤ a.log2 :=
  (Nat.le_log2 (by positivity)).2 h

theorem round53_le_add_half {a : Nat} (h : 2 ^ 53 ≤ a) :
    round53 a ≤ a + 2 ^ (a.log2 - 52 - 1) := by
  have h53 := log2_ge_53 h
  rw [round53_spec a (by omega)]
  set e := a.log2 - 52 with he
  have he1 : 1 ≤ e := by omega
  have hqr := Nat.div_add_mod a (2 ^ e)
  rw [Nat.mul_comm] at hqr
  have hrl : a % 2 ^ e < 2 ^ e := Nat.mod_lt _ (by positivity)
  have hee : 2 ^ e = 2 * 2 ^ (e - 1) := by
    rw [← pow_succ']
    congr 1
    omega
  split
  case isTrue hc =>
    have hr : 2 ^ (e - 1) ≤ a % 2 ^ e := by rcases hc with h' | h' <;> omega
    have : (a / 2 ^ e + 1) * 2 ^ e = a / 2 ^ e * 2 ^ e + 2 ^ e := by ring
    omega
  case isFalse => omega

theorem round53_le_self_of_not {a : Nat} (h : 2 ^ 53 ≤ a)
    (hc : ¬ (2 ^ (a.log2 - 52 - 1) < a % 2 ^ (a.log2 - 52) ∨
        (a % 2 ^ (a.log2 - 52) = 2 ^ (a.log2 - 52 - 1) ∧ (a / 2 ^ (a.log2 - 52)) % 2 = 1))) :
    round53 a ≤ a := by
  rw [round53_spec a (by omega), if_neg hc]
  have hqr := Nat.div_add_mod a (2 ^ (a.log2 - 52))
  rw [Nat.mul_comm] at hqr
  omega

theorem round53_le_add_div (a : Nat) : round53 a ≤ a + a / 2 ^ 53 := by
  rcases Nat.lt_or_ge a (2 ^ 53) with h | h
  · rw [round53_of_lt h]
    omega
  · have h53 := log2_ge_53 h
    have hhalf := round53_le_add_half h
    have hlog : 2 ^ a.log2 ≤ a := Nat.log2_self_le (by positivity)
    have hsplit : a.log2 = (a.log2 - 52 - 1) + 53 := by omega
    have hle : 2 ^ (a.log2 - 52 - 1) ≤ a / 2 ^ 53 := by
      rw [Nat.le_div_iff_mul_le (by positivity), ← pow_add, ← hsplit]
      exact hlog
    omega

theorem round53_dvd {a : Nat} (h : 2 ^ 53 ≤ a) : 2 ^ (a.log2 - 52) ∣ round53 a := by
  rw [round53_spec a (by omega)]
  split <;> exact Dvd.intro_left _ rfl

theorem round53_le_mul64 {a m : Nat} (ha : a ≤ m * 2 ^ 64) (hbig : a < 2 ^ 117) :
    round53 a ≤ m * 2 ^ 64 := by
  rcases Nat.lt_or_ge a (2 ^ 53) with h | h
  · rw [round53_of_lt h]
    exact ha
  · have h53 := log2_ge_53 h
    have hlt : a.log2 < 117 := (Nat.log2_lt (by positivity)).2 hbig
    rw [round53_spec a (by omega)]
    set e := a.log2 - 52 with he
    have he1 : 1 ≤ e := by omega
    have he64 : e ≤ 64 := by omega
    obtain ⟨Q, hQ⟩ : 2 ^ e ∣ m * 2 ^ 64 := Dvd.dvd.mul_left (pow_dvd_pow 2 he64) m
    have hqa := Nat.div_add_mod a (2 ^ e)
    rw [Nat.mul_comm] at hqa
    have hpe : 0 < 2 ^ e := by positivity
    have hq : a / 2 ^ e ≤ Q := by
      refine Nat.le_of_mul_le_mul_right ?_ hpe
      calc a / 2 ^ e * 2 ^ e ≤ a := by omega
        _ ≤ m * 2 ^ 64 := ha
        _ = Q * 2 ^ e := by rw [hQ, Nat.mul_comm]
    rcases Nat.lt_or_ge (a / 2 ^ e) Q with hlt2 | hge2
    · have h1 : (a / 2 ^ e + 1) * 2 ^ e ≤ Q * 2 ^ e := Nat.mul_le_mul_right _ (by omega)
      have h2 : a / 2 ^ e * 2 ^ e ≤ Q * 2 ^ e := Nat.mul_le_mul_right _ (by omega)
      have hQL : Q * 2 ^ e = m * 2 ^ 64 := by rw [hQ, Nat.mul_comm]
      split <;> omega
    · have heq : a / 2 ^ e = Q := by omega
      have hL : a / 2 ^ e * 2 ^ e = m * 2 ^ 64 := by rw [heq, hQ, Nat.mul_comm]
      have hmod : a % 2 ^ e = 0 := by omega
      have hp1 : 0 < 2 ^ (e - 1) := by positivity
      rw [if_neg (by omega)]
      omega

theorem round53_le_top {a : Nat} (h : a < 2 ^ 64 - 2 ^ 10) : round53 a ≤ 2 ^ 64 - 2 ^ 11 := by
  rcases Nat.lt_or_ge a (2 ^ 53) with hs | hs
  · rw [round53_of_lt hs]
    norm_num at hs ⊢
    omega
  · have h53 := log2_ge_53 hs
    rcases Nat.lt_or_ge a (2 ^ 63) with h63 | h63
    · have hlog : a.log2 < 63 := (Nat.log2_lt (by positivity)).2 h63
      have hhalf := round53_le_add_half hs
      have hb : 2 ^ (a.log2 - 52 - 1) ≤ 2 ^ 10 := Nat.pow_le_pow_right (by norm_num) (by omega)
      norm_num at h63 ⊢
      omega
    · have ha64 : a < 2 ^ 64 := lt_of_lt_of_le h (by norm_num)
      have hup : a.log2 < 64 := (Nat.log2_lt (by positivity)).2 ha64
      have hdown : 63 ≤ a.log2 := (Nat.le_log2 (by positivity)).2 h63
      have hlog : a.log2 = 63 := by omega
      have hhalf := round53_le_add_half hs
      have hdvd := round53_dvd hs
      rw [hlog] at hhalf hdvd
      norm_num at hhalf hdvd h ⊢
      omega

theorem f64ScaleMul_le {h n : Nat} (hh : h ≤ 2 ^ 64) (hn : n ≤ 2 ^ 52) :
    f64ScaleMul h n ≤ n := by
  have h1 : round53 h ≤ 1 * 2 ^ 64 :=
    round53_le_mul64 (by omega) (lt_of_le_of_lt hh (by norm_num))
  have h2 : round53 h * n ≤ n * 2 ^ 64 := by
    calc round53 h * n ≤ 1 * 2 ^ 64 * n := Nat.mul_le_mul_right _ h1
      _ = n * 2 ^ 64 := by ring
  have h3 : round53 h * n < 2 ^ 117 := by
    calc round53 h * n ≤ n * 2 ^ 64 := h2
      _ ≤ 2 ^ 52 * 2 ^ 64 := Nat.mul_le_mul_right _ hn
      _ < 2 ^ 117 := by norm_num
  have h4 : round53 (round53 h * n) ≤ n * 2 ^ 64 := round53_le_mul64 h2 h3
  rw [f64ScaleMul]
  calc round53 (round53 h * n) / 2 ^ 64 ≤ n * 2 ^ 64 / 2 ^ 64 := Nat.div_le_div_right h4
    _ = n := Nat.mul_div_cancel _ (by positivity)

theorem f64ScaleMul_lt {h n : Nat} (hh : h < 2 ^ 64 - 2 ^ 10) (hn : 0 < n) :
    f64ScaleMul h n < n := by
  have h1 : round53 h ≤ 2 ^ 64 - 2 ^ 11 := round53_le_top hh
  have h2 : round53 h * n ≤ (2 ^ 64 - 2 ^ 11) * n := Nat.mul_le_mul_right _ h1
  have h3 : round53 h * n < 2 ^ 64 * n := by
    have : (2 ^ 64 - 2 ^ 11) * n < 2 ^ 64 * n := by
      refine (Nat.mul_lt_mul_right hn).2 ?_
      norm_num
    omega
  have h4 := round53_le_add_div (round53 h * n)
  have h5 : round53 h * n / 2 ^ 53 < 2 ^ 11 * n := by
    rw [Nat.div_lt_iff_lt_mul (by positivity)]
    calc round53 h * n < 2 ^ 64 * n := h3
      _ = 2 ^ 11 * n * 2 ^ 53 := by ring
  have h6 : (2 ^ 64 - 2 ^ 11) * n = 2 ^ 64 * n - 2 ^ 11 * n := Nat.sub_mul _ _ _
  have h7 : 2 ^ 11 * n ≤ 2 ^ 64 * n := Nat.mul_le_mul_right _ (by norm_num)
  have h8 : round53 (round53 h * n) < 2 ^ 64 * n := by omega
  rw [f64ScaleMul, Nat.div_lt_iff_lt_mul (by positivity : (0:Nat) < 2 ^ 64)]
  calc round53 (round53 h * n) < 2 ^ 64 * n := h8
    _ = n * 2 ^ 64 := by ring

theorem log2_top64 : Nat.log2 (2 ^ 64 - 1) = 63 := by
  refine Nat.le_antisymm ?_ ((Nat.le_log2 (by norm_num)).2 (by norm_num))
  have := (Nat.log2_lt (by norm_num : (2:Nat) ^ 64 - 1 ≠ 0)).2
    (by norm_num : (2:Nat) ^ 64 - 1 < 2 ^ 64)
  omega

theorem round53_top64 : round53 (2 ^ 64 - 1) = 2 ^ 64 := by
  rw [round53_spec _ (by norm_num), log2_top64]
  norm_num

theorem log2_ten64 : Nat.log2 (2 ^ 64 * 10) = 67 := by
  refine Nat.le_antisymm ?_ ((Nat.le_log2 (by norm_num)).2 (by norm_num))
  have := (Nat.log2_lt (by norm_num : (2:Nat) ^ 64 * 10 ≠ 0)).2
    (by norm_num : (2:Nat) ^ 64 * 10 < 2 ^ 68)
  omega

theorem round53_ten64 : round53 (2 ^ 64 * 10) = 2 ^ 64 * 10 := by
  rw [round53_spec _ (by norm_num), log2_ten64]
  norm_num

theorem f64ScaleMul_top : f64ScaleMul (2 ^ 64 - 1) 10 = 10 := by
  rw [f64ScaleMul, round53_top64]
  rw [show (2:Nat) ^ 64 * 10 = 2 ^ 64 * 10 from rfl, round53_ten64]
  norm_num

/-! ### Generic hash-range corollaries -/

theorem hash_threshold_le_max {ht : Nat → Nat} {s : SlickHash} {k : Nat}
    (hh : ht k ≤ 2 ^ 64) (hn : s.max_threshold ≤ 2 ^ 52) :
    SlickHash.hash_threshold ht s k ≤ s.max_threshold :=
  f64ScaleMul_le hh hn

/-! ### Claim C6 -/

/-- Claim C6, counterexample.  The claim states that `hash_block_index`
always lands strictly below the number of blocks `N`.  It does not: a 64-bit
hash within `2^10` of `2^64` (here `2^64 - 1`) is rounded to `2^64` by the
`as f64` conversion, the quotient by `u64::MAX as f64` is exactly `1.0`, and
the scaled, floored result is exactly `N` — here `10`, the block count of a
100-cell table, one past the last valid index. -/
theorem c6_counterexample :
    SlickHash.hash_block_index (fun _ => 2 ^ 64 - 1) exampleTable100 0 = 10 ∧
    exampleTable100.number_of_blocks = 10 := by
  constructor
  · show f64ScaleMul (2 ^ 64 - 1) 10 = 10
    exact f64ScaleMul_top
  · rfl

/-- Claim C6, amended: for every key whose 64-bit block hash is below
`2^64 - 2^10` (every hash that the `f64` conversion does not round up to
`2^64`), `hash_block_index` lands in `[0, N)`, so such keys never index the
meta-data or main-table arrays out of bounds; the remaining top `2^10` hash
values are scaled to exactly `N`. -/
theorem c6_amended (hb : Nat → Nat) (s : SlickHash) (key : Nat)
    (hh : hb key < 2 ^ 64 - 2 ^ 10) (hn : 0 < s.number_of_blocks) :
    SlickHash.hash_block_index hb s key < s.number_of_blocks :=
  f64ScaleMul_lt hh hn

/-- Witness for `c6_amended` at the constant hash 0 on a fresh 100-cell
table. -/
theorem c6_amended_witness :
    SlickHash.hash_block_index hashZero exampleTable100 0 < exampleTable100.number_of_blocks :=
  c6_amended hashZero exampleTable100 0 (by decide) (by decide)

/-! ### Claim C9 -/

/-- Claim C9, counterexample.  The claim states that `with_capacity(c)`
panics exactly when `c` is not a *positive* multiple of the block size 10.
Capacity 0 is a multiple of 10 but not a positive one, and the construction
does not abort: `assert_eq!(0 % 10, 0)` passes and a table with no blocks is
returned. -/
theorem c9_counterexample :
    SlickHash.new 0 =
      some { main_table_size := 0, block_size := 10, number_of_blocks := 0,
             max_slick_size := 20, max_offset := 10, max_threshold := 10,
             main_table := [], meta_data := [], backyard := [],
             no_elements_in_main_table := 0 } := by
  decide

/-- Claim C9, amended: construction aborts exactly when the capacity is not a
multiple of `block_size` (10) — capacity 0 is accepted and yields a table
with no blocks — and on every multiple the table returned has every block at
`offset = 0`, `gap = block_size`, `threshold = 0`, `c` default cells, and
`no_elements_in_main_table = 0`. -/
theorem c9_amended (c : Nat) :
    (SlickHash.new c = none ↔ ¬ (c % 10 = 0)) ∧
    (∀ s, SlickHash.new c = some s →
      s.meta_data = List.replicate (c / 10) ⟨0, 10, 0⟩ ∧
      s.main_table = List.replicate c (0, 0) ∧
      s.no_elements_in_main_table = 0 ∧
      s.block_size = 10 ∧ s.number_of_blocks = c / 10 ∧
      s.main_table_size = c ∧ s.backyard = []) := by
  constructor
  · rw [SlickHash.new]
    split
    · simp_all
    · simp_all
  · intro s hs
    rw [SlickHash.new] at hs
    split at hs
    · cases hs
      exact ⟨rfl, rfl, rfl, rfl, rfl, rfl, rfl⟩
    · cases hs

/-- Witness for `c9_amended` at capacity 100. -/
theorem c9_amended_witness :
    exampleTable100.meta_data = List.replicate (100 / 10) ⟨0, 10, 0⟩ ∧
    exampleTable100.main_table = List.replicate 100 (0, 0) ∧
    exampleTable100.no_elements_in_main_table = 0 ∧
    exampleTable100.block_size = 10 ∧ exampleTable100.number_of_blocks = 100 / 10 ∧
    exampleTable100.main_table_size = 100 ∧ exampleTable100.backyard = [] :=
  (c9_amended 100).2 exampleTable100 (by decide)

/-! ### Claim C1 -/

/-- Claim C1, behavior of the code at the failing input.  On a fresh
100-cell table (both hashes constant 0, so key 7 lives in block 0),
`try_insert((7,700))` stores the pair; the second call `try_insert((7,999))`
finds key 7 in the block but returns the `Inserted` variant — not the
`Occupied` variant the spec prescribes — carrying the stored value 700
(through `&mut self.main_table[some_found_index].1`, which here lands on the
right cell only because block 0 starts at index 0), leaves the state
untouched, and a subsequent `get(&7)` still yields 700 (the stored value is
indeed never overwritten). -/
theorem c1_code_behavior :
    SlickHash.try_insert hashZero hashZero
        (SlickHash.try_insert hashZero hashZero exampleTable100 7 700).2 7 999
      = (Insertion.Inserted 700,
         (SlickHash.try_insert hashZero hashZero exampleTable100 7 700).2) ∧
    SlickHash.get hashZero hashZero
        (SlickHash.try_insert hashZero hashZero
          (SlickHash.try_insert hashZero hashZero exampleTable100 7 700).2 7 999).2 7
      = some 700 := by
  decide

/-! ### Claim C2 -/

/-- Claim C2: for every key, `get` consults exactly one of the two regions.
When `H_t(k)` is under the home block's threshold the result is the backyard
lookup — and stays the same whatever the main table holds; otherwise it is
the linear scan of the home block's current range — and stays the same
whatever the backyard holds.  There is no combination of, or fall-through
between, the two regions. -/
theorem c2_get_consults_exactly_one_region (hb ht : Nat → Nat) (s : SlickHash) (k : Nat) :
    (SlickHash.hash_threshold ht s k <
        (SlickHash.getMD s (SlickHash.hash_block_index hb s k)).threshold →
      SlickHash.get hb ht s k = SlickHash.byFind s.backyard k ∧
      ∀ mt, SlickHash.get hb ht { s with main_table := mt } k =
        SlickHash.byFind s.backyard k) ∧
    ((SlickHash.getMD s (SlickHash.hash_block_index hb s k)).threshold ≤
        SlickHash.hash_threshold ht s k →
      SlickHash.get hb ht s k =
        SlickHash.mainRegionLookup s (SlickHash.hash_block_index hb s k) k ∧
      ∀ b, SlickHash.get hb ht { s with backyard := b } k =
        SlickHash.mainRegionLookup s (SlickHash.hash_block_index hb s k) k) := by
  constructor
  · intro hroute
    constructor
    · rw [SlickHash.get, if_pos hroute]
    · intro mt
      rw [SlickHash.get]
      exact if_pos hroute
  · intro hroute
    constructor
    · rw [SlickHash.get, if_neg (by omega), SlickHash.mainRegionLookup]
    · intro b
      rw [SlickHash.get]
      rw [if_neg (by exact Nat.not_lt.2 hroute)]
      rfl

/-- Witness for `c2_get_consults_exactly_one_region` on a fresh table, key 5
routed to the main region. -/
theorem c2_witness :
    SlickHash.get hashZero hashZero exampleTable100 5 =
      SlickHash.mainRegionLookup exampleTable100
        (SlickHash.hash_block_index hashZero exampleTable100 5) 5 ∧
    ∀ b, SlickHash.get hashZero hashZero { exampleTable100 with backyard := b } 5 =
      SlickHash.mainRegionLookup exampleTable100
        (SlickHash.hash_block_index hashZero exampleTable100 5) 5 :=
  (c2_get_consults_exactly_one_region hashZero hashZero exampleTable100 5).2 (by decide)

/-! ### Claim C3 -/

theorem firstMatch_backyard_congr (s : SlickHash) (b : List (Nat × Nat)) (i k : Nat) :
    SlickHash.firstMatch { s with backyard := b } i k = SlickHash.firstMatch s i k := rfl

/-- Claim C3: when the threshold routes `k` to the backyard, `remove_entry`
returns exactly the backyard removal result and leaves the main table, all
block meta-data and the element counter unchanged.  The hypothesis is the
reachable-state invariant that every entry of the home block has threshold
hash at least the block's threshold (so the source's fall-through scan of
the block cannot find `k` there). -/
theorem c3_remove_routed_to_backyard (hb ht : Nat → Nat) (s : SlickHash) (k : Nat)
    (hroute : SlickHash.hash_threshold ht s k <
      (SlickHash.getMD s (SlickHash.hash_block_index hb s k)).threshold)
    (hblock : ∀ p ∈ SlickHash.blockSlice s (SlickHash.hash_block_index hb s k),
      (SlickHash.getMD s (SlickHash.hash_block_index hb s k)).threshold ≤
        SlickHash.hash_threshold ht s p.1) :
    SlickHash.remove_entry hb ht s k =
      ((SlickHash.byRemove s.backyard k).1,
       { s with backyard := (SlickHash.byRemove s.backyard k).2 }) := by
  have hnone : SlickHash.firstMatch s (SlickHash.hash_block_index hb s k) k = none := by
    rw [SlickHash.firstMatch, List.find?_eq_none]
    intro t hmem
    simp only [beq_iff_eq]
    intro heq
    have hp := hblock
      (SlickHash.cell s (SlickHash.block_start s (SlickHash.hash_block_index hb s k) + t))
      (by
        rw [SlickHash.blockSlice]
        exact List.mem_map.2 ⟨t, hmem, rfl⟩)
    rw [heq] at hp
    omega
  rcases hby : SlickHash.byRemove s.backyard k with ⟨r0, b0⟩
  rw [SlickHash.remove_entry, if_pos hroute, hby]
  dsimp only
  rw [firstMatch_backyard_congr, hnone]

/-- Witness for `c3_remove_routed_to_backyard`: key 7 with threshold hash 0
is under block 0's threshold 3, the block range is empty, and the call
removes `(7, 700)` from the backyard only. -/
theorem c3_witness :
    SlickHash.remove_entry hashZero hashZero exampleThresholdTable 7 =
      ((SlickHash.byRemove exampleThresholdTable.backyard 7).1,
       { exampleThresholdTable with
         backyard := (SlickHash.byRemove exampleThresholdTable.backyard 7).2 }) :=
  c3_remove_routed_to_backyard hashZero hashZero exampleThresholdTable 7 (by decide) (by decide)

/-! ### Foundations: list access, meta-data updates, geometry -/

theorem getD_set {α : Type} (l : List α) (i : Nat) (x : α) (m : Nat) (d : α) :
    (l.set i x).getD m d = if m = i ∧ i < l.length then x else l.getD m d := by
  induction l generalizing i m with
  | nil => simp [List.getD]
  | cons a t ih =>
    cases i with
    | zero =>
      cases m with
      | zero => simp [List.getD]
      | succ m' => simp [List.getD]
    | succ i' =>
      cases m with
      | zero => simp [List.getD]
      | succ m' =>
        simp only [List.set, List.getD_cons_succ, List.length_cons, ih]
        have : (m' = i' ∧ i' < t.length) ↔ (m' + 1 = i' + 1 ∧ i' + 1 < t.length + 1) := by omega
        rw [if_congr this rfl rfl]

namespace SlickHash

theorem getMD_updMD (s : SlickHash) (i : Nat) (f : SlickHashMetaData → SlickHashMetaData)
    (m : Nat) :
    getMD (updMD s i f) m =
      if m = i ∧ i < s.meta_data.length then f (getMD s i) else getMD s m := by
  simp only [getMD, updMD, getD_set]

theorem cell_set (s : SlickHash) (j : Nat) (x : Nat × Nat) (m : Nat) :
    cell { s with main_table := s.main_table.set j x } m =
      if m = j ∧ j < s.main_table.length then x else cell s m := by
  simp only [cell, getD_set]

theorem updMD_scalars (s : SlickHash) (i : Nat) (f : SlickHashMetaData → SlickHashMetaData) :
    (updMD s i f).block_size = s.block_size ∧
    (updMD s i f).number_of_blocks = s.number_of_blocks ∧
    (updMD s i f).main_table_size = s.main_table_size ∧
    (updMD s i f).max_slick_size = s.max_slick_size ∧
    (updMD s i f).max_offset = s.max_offset ∧
    (updMD s i f).max_threshold = s.max_threshold ∧
    (updMD s i f).main_table = s.main_table ∧
    (updMD s i f).backyard = s.backyard ∧
    (updMD s i f).no_elements_in_main_table = s.no_elements_in_main_table ∧
    (updMD s i f).meta_data.length = s.meta_data.length := by
  refine ⟨rfl, rfl, rfl, rfl, rfl, rfl, rfl, rfl, rfl, ?_⟩
  simp [updMD]

/-- Helper bound: the right boundary `block_end + gap` of block `i`, in the
additive form (`main_table_size` for the last block, the next block's start
otherwise). -/
theorem block_end_add_gap (s : SlickHash) (i : Nat)
    (hgeom : if i + 1 = s.number_of_blocks then
        (getMD s i).offset + (getMD s i).gap ≤ s.block_size
      else s.block_size * i + (getMD s i).offset + (getMD s i).gap ≤
        s.block_size * (i + 1) + (getMD s (i + 1)).offset)
    (hi : i < s.number_of_blocks)
    (hM : s.main_table_size = s.block_size * s.number_of_blocks) :
    block_end s i + (getMD s i).gap =
      if i + 1 = s.number_of_blocks then s.main_table_size
      else s.block_size * (i + 1) + (getMD s (i + 1)).offset := by
  rw [block_end]
  by_cases hlast : i + 1 = s.number_of_blocks
  · rw [if_pos (by omega), if_pos hlast]
    rw [if_pos hlast] at hgeom
    have h1 : s.block_size * i + s.block_size = s.block_size * (i + 1) := by ring
    have h2 : s.block_size * (i + 1) ≤ s.block_size * s.number_of_blocks :=
      Nat.mul_le_mul_left _ (by omega)
    omega
  · rw [if_neg (by omega), if_neg hlast]
    rw [if_neg hlast] at hgeom
    have h1 : s.block_size * i + s.block_size = s.block_size * (i + 1) := by ring
    omega

theorem start_le_end_of_geom (s : SlickHash) (i : Nat)
    (hgeom : if i + 1 = s.number_of_blocks then
        (getMD s i).offset + (getMD s i).gap ≤ s.block_size
      else s.block_size * i + (getMD s i).offset + (getMD s i).gap ≤
        s.block_size * (i + 1) + (getMD s (i + 1)).offset)
    (hi : i < s.number_of_blocks)
    (hM : s.main_table_size = s.block_size * s.number_of_blocks) :
    block_start s i ≤ block_end s i := by
  have hchar := block_end_add_gap s i hgeom hi hM
  rw [block_start]
  by_cases hlast : i + 1 = s.number_of_blocks
  · rw [if_pos hlast] at hchar hgeom
    have h2 : s.block_size * (i + 1) ≤ s.block_size * s.number_of_blocks :=
      Nat.mul_le_mul_left _ (by omega)
    have h1 : s.block_size * i + s.block_size = s.block_size * (i + 1) := by ring
    omega
  · rw [if_neg hlast] at hchar hgeom
    have h1 : s.block_size * i + s.block_size = s.block_size * (i + 1) := by ring
    omega

end SlickHash

namespace SlickHash

theorem WF.fields {s : SlickHash} (h : WF s) :
    s.block_size = 10 ∧ s.max_slick_size = 20 ∧ s.max_offset = 10 ∧ s.max_threshold = 10 ∧
    0 < s.number_of_blocks ∧
    s.main_table_size = s.block_size * s.number_of_blocks ∧
    s.main_table.length = s.main_table_size ∧
    s.meta_data.length = s.number_of_blocks :=
  ⟨h.1, h.2.1, h.2.2.1, h.2.2.2.1, h.2.2.2.2.1, h.2.2.2.2.2.1, h.2.2.2.2.2.2.1,
   h.2.2.2.2.2.2.2.1⟩

theorem WF.offCap {s : SlickHash} (h : WF s) {i : Nat} (hi : i < s.number_of_blocks) :
    (getMD s i).offset ≤ s.max_offset :=
  h.2.2.2.2.2.2.2.2.1 i (List.mem_range.2 hi)

theorem WF.geom {s : SlickHash} (h : WF s) {i : Nat} (hi : i < s.number_of_blocks) :
    if i + 1 = s.number_of_blocks then
      (getMD s i).offset + (getMD s i).gap ≤ s.block_size
    else s.block_size * i + (getMD s i).offset + (getMD s i).gap ≤
      s.block_size * (i + 1) + (getMD s (i + 1)).offset :=
  h.2.2.2.2.2.2.2.2.2.1 i (List.mem_range.2 hi)

theorem WF.emptyGap {s : SlickHash} (h : WF s) {i : Nat} (hi : i < s.number_of_blocks)
    (hempty : block_start s i = block_end s i) : 1 ≤ (getMD s i).gap :=
  h.2.2.2.2.2.2.2.2.2.2.1 i (List.mem_range.2 hi) hempty

theorem WF.counter {s : SlickHash} (h : WF s) :
    s.no_elements_in_main_table = sumLens s :=
  h.2.2.2.2.2.2.2.2.2.2.2

theorem WF.end_add_gap {s : SlickHash} (h : WF s) {i : Nat} (hi : i < s.number_of_blocks) :
    block_end s i + (getMD s i).gap =
      if i + 1 = s.number_of_blocks then s.main_table_size
      else s.block_size * (i + 1) + (getMD s (i + 1)).offset :=
  block_end_add_gap s i (h.geom hi) hi h.fields.2.2.2.2.2.1

theorem WF.start_le_end {s : SlickHash} (h : WF s) {i : Nat} (hi : i < s.number_of_blocks) :
    block_start s i ≤ block_end s i :=
  start_le_end_of_geom s i (h.geom hi) hi h.fields.2.2.2.2.2.1

theorem WF.end_le_size {s : SlickHash} (h : WF s) {i : Nat} (hi : i < s.number_of_blocks) :
    block_end s i ≤ s.main_table_size := by
  have hchar := h.end_add_gap hi
  by_cases hlast : i + 1 = s.number_of_blocks
  · rw [if_pos hlast] at hchar
    omega
  · rw [if_neg hlast] at hchar
    have hc := h.offCap (show i + 1 < s.number_of_blocks by omega)
    have h2 : s.block_size * (i + 1) + s.block_size = s.block_size * (i + 2) := by ring
    have h3 : s.block_size * (i + 2) ≤ s.block_size * s.number_of_blocks :=
      Nat.mul_le_mul_left _ (by omega)
    have hmo : s.max_offset = 10 := h.fields.2.2.1
    have hbs : s.block_size = 10 := h.fields.1
    have hM : s.main_table_size = s.block_size * s.number_of_blocks := h.fields.2.2.2.2.2.1
    omega

theorem WF.end_le_start_succ {s : SlickHash} (h : WF s) {i : Nat}
    (hi : i + 1 < s.number_of_blocks) :
    block_end s i ≤ block_start s (i + 1) := by
  have hchar := h.end_add_gap (show i < s.number_of_blocks by omega)
  rw [if_neg (by omega)] at hchar
  rw [block_start]
  omega

theorem WF.start_mono {s : SlickHash} (h : WF s) {i j : Nat} (hij : i ≤ j)
    (hj : j < s.number_of_blocks) : block_start s i ≤ block_start s j := by
  induction j with
  | zero =>
    have : i = 0 := by omega
    subst this
    exact Nat.le_refl _
  | succ j' ih =>
    rcases Nat.eq_or_lt_of_le hij with heq | hlt
    · subst heq
      exact Nat.le_refl _
    · calc block_start s i ≤ block_start s j' := ih (by omega) (by omega)
        _ ≤ block_end s j' := h.start_le_end (by omega)
        _ ≤ block_start s (j' + 1) := h.end_le_start_succ hj

end SlickHash

/-! ### The leftward gap slide: donor walk and loop characterization -/

namespace SlickHash

theorem findDonorLeft_spec (s : SlickHash) (i j : Nat)
    (h : findDonorLeft s i = some j) :
    j ≤ i ∧ (getMD s j).gap ≠ 0 ∧
    ∀ m, j < m → m ≤ i → (getMD s m).gap = 0 ∧ (getMD s m).offset ≠ 0 := by
  induction i with
  | zero =>
    rw [findDonorLeft] at h
    split at h
    · cases h
    · cases h
      exact ⟨Nat.le_refl _, by omega, fun m h1 h2 => by omega⟩
  | succ n ih =>
    rw [findDonorLeft] at h
    split at h
    case isTrue hgap =>
      split at h
      case isTrue => cases h
      case isFalse hoff =>
        obtain ⟨h1, h2, h3⟩ := ih h
        refine ⟨by omega, h2, fun m hm1 hm2 => ?_⟩
        rcases Nat.lt_or_ge m (n + 1) with hlt | hge
        · exact h3 m hm1 (by omega)
        · have : m = n + 1 := by omega
          subst this
          exact ⟨hgap, hoff⟩
    case isFalse hgap =>
      cases h
      exact ⟨Nat.le_refl _, hgap, fun m h1 h2 => by omega⟩

theorem slideLeftStep_meta (s : SlickHash) (k m : Nat) :
    getMD (slideLeftStep s k) m =
      if m = k ∧ k < s.meta_data.length then
        { getMD s m with offset := (getMD s m).offset - 1 }
      else getMD s m := by
  rw [slideLeftStep]
  have h := getMD_updMD
    { s with main_table := s.main_table.set (block_start s k - 1) (cell s (block_end s k - 1)) }
    k (fun md => { md with offset := md.offset - 1 }) m
  rw [h]
  by_cases hc : m = k ∧ k < s.meta_data.length
  · rw [if_pos hc, if_pos (by exact hc)]
    obtain ⟨rfl, _⟩ := hc
    rfl
  · rw [if_neg hc, if_neg (by exact hc)]
    rfl

theorem slideLeftStep_scalars (s : SlickHash) (k : Nat) :
    (slideLeftStep s k).block_size = s.block_size ∧
    (slideLeftStep s k).number_of_blocks = s.number_of_blocks ∧
    (slideLeftStep s k).main_table_size = s.main_table_size ∧
    (slideLeftStep s k).max_slick_size = s.max_slick_size ∧
    (slideLeftStep s k).max_offset = s.max_offset ∧
    (slideLeftStep s k).max_threshold = s.max_threshold ∧
    (slideLeftStep s k).main_table.length = s.main_table.length ∧
    (slideLeftStep s k).backyard = s.backyard ∧
    (slideLeftStep s k).no_elements_in_main_table = s.no_elements_in_main_table ∧
    (slideLeftStep s k).meta_data.length = s.meta_data.length := by
  refine ⟨rfl, rfl, rfl, rfl, rfl, rfl, ?_, rfl, rfl, ?_⟩
  · simp [slideLeftStep, updMD]
  · simp [slideLeftStep, updMD]

theorem slideLeftLoop_meta (s : SlickHash) (k n m : Nat) :
    getMD (slideLeftLoop s k n) m =
      if k ≤ m ∧ m < k + n ∧ m < s.meta_data.length then
        { getMD s m with offset := (getMD s m).offset - 1 }
      else getMD s m := by
  induction n generalizing s k with
  | zero =>
    rw [slideLeftLoop]
    rw [if_neg (by omega)]
  | succ n ih =>
    rw [slideLeftLoop, ih, slideLeftStep_meta]
    have hlen : (slideLeftStep s k).meta_data.length = s.meta_data.length :=
      (slideLeftStep_scalars s k).2.2.2.2.2.2.2.2.2
    rw [hlen]
    split_ifs <;> first | rfl | (exfalso; omega)

theorem slideLeftLoop_scalars (s : SlickHash) (k n : Nat) :
    (slideLeftLoop s k n).block_size = s.block_size ∧
    (slideLeftLoop s k n).number_of_blocks = s.number_of_blocks ∧
    (slideLeftLoop s k n).main_table_size = s.main_table_size ∧
    (slideLeftLoop s k n).max_slick_size = s.max_slick_size ∧
    (slideLeftLoop s k n).max_offset = s.max_offset ∧
    (slideLeftLoop s k n).max_threshold = s.max_threshold ∧
    (slideLeftLoop s k n).main_table.length = s.main_table.length ∧
    (slideLeftLoop s k n).backyard = s.backyard ∧
    (slideLeftLoop s k n).no_elements_in_main_table = s.no_elements_in_main_table ∧
    (slideLeftLoop s k n).meta_data.length = s.meta_data.length := by
  induction n generalizing s k with
  | zero => exact ⟨rfl, rfl, rfl, rfl, rfl, rfl, rfl, rfl, rfl, rfl⟩
  | succ n ih =>
    rw [slideLeftLoop]
    have h1 := ih (slideLeftStep s k) (k + 1)
    have h2 := slideLeftStep_scalars s k
    exact ⟨h1.1.trans h2.1, h1.2.1.trans h2.2.1, h1.2.2.1.trans h2.2.2.1,
      h1.2.2.2.1.trans h2.2.2.2.1, h1.2.2.2.2.1.trans h2.2.2.2.2.1,
      h1.2.2.2.2.2.1.trans h2.2.2.2.2.2.1, h1.2.2.2.2.2.2.1.trans h2.2.2.2.2.2.2.1,
      h1.2.2.2.2.2.2.2.1.trans h2.2.2.2.2.2.2.2.1,
      h1.2.2.2.2.2.2.2.2.1.trans h2.2.2.2.2.2.2.2.2.1,
      h1.2.2.2.2.2.2.2.2.2.trans h2.2.2.2.2.2.2.2.2.2⟩

end SlickHash

namespace SlickHash

/-- Master description of a successful leftward slide: the donor `j` found by
the walk, the guards that held, and the exact effect on every block's
meta-data (offsets drop by one on `[j+1, i]`, the donor loses one gap, block
`i` gains one, thresholds are untouched) together with preservation of every
other component. -/
theorem slide_left_true_spec (s : SlickHash) (i : Nat) (s' : SlickHash)
    (hlenN : s.meta_data.length = s.number_of_blocks) (hi : i < s.number_of_blocks)
    (hres : slide_gap_from_left s i = (true, s')) :
    ∃ j, findDonorLeft s i = some j ∧ j ≤ i ∧ (getMD s j).gap ≠ 0 ∧
      ¬((getMD s j).gap = 1 ∧ block_start s j = block_end s j) ∧
      (∀ m, j < m → m ≤ i → (getMD s m).gap = 0 ∧ (getMD s m).offset ≠ 0) ∧
      (∀ m, (getMD s' m).threshold = (getMD s m).threshold) ∧
      (∀ m, (getMD s' m).offset =
        if j + 1 ≤ m ∧ m ≤ i then (getMD s m).offset - 1 else (getMD s m).offset) ∧
      (∀ m, (getMD s' m).gap =
        if m = i then (if j = i then (getMD s m).gap else (getMD s m).gap + 1)
        else if m = j then (getMD s m).gap - 1 else (getMD s m).gap) ∧
      s'.block_size = s.block_size ∧ s'.number_of_blocks = s.number_of_blocks ∧
      s'.main_table_size = s.main_table_size ∧ s'.max_slick_size = s.max_slick_size ∧
      s'.max_offset = s.max_offset ∧ s'.max_threshold = s.max_threshold ∧
      s'.main_table.length = s.main_table.length ∧ s'.backyard = s.backyard ∧
      s'.no_elements_in_main_table = s.no_elements_in_main_table ∧
      s'.meta_data.length = s.meta_data.length := by
  rw [slide_gap_from_left] at hres
  cases hdon : findDonorLeft s i with
  | none =>
    rw [hdon] at hres
    simp at hres
  | some j =>
    rw [hdon] at hres
    dsimp only at hres
    by_cases hdeg : (getMD s j).gap = 1 ∧ block_start s j = block_end s j
    · rw [if_pos hdeg] at hres
      simp at hres
    · rw [if_neg hdeg] at hres
      obtain ⟨hji, hgap0, hwalk⟩ := findDonorLeft_spec s i j hdon
      have hs' : s' =
          updMD (slideLeftLoop (updMD s j fun md => { md with gap := md.gap - 1 })
            (j + 1) (i - j)) i (fun md => { md with gap := md.gap + 1 }) :=
        (congrArg Prod.snd hres).symm
      have h1 : ∀ m, getMD (updMD s j fun md => { md with gap := md.gap - 1 }) m =
          if m = j then { getMD s j with gap := (getMD s j).gap - 1 } else getMD s m := by
        intro m
        rw [getMD_updMD]
        by_cases hm : m = j
        · rw [if_pos ⟨hm, by omega⟩, if_pos hm]
        · rw [if_neg (fun hc => hm hc.1), if_neg hm]
      have h1len : (updMD s j fun md => { md with gap := md.gap - 1 }).meta_data.length =
          s.meta_data.length := (updMD_scalars _ _ _).2.2.2.2.2.2.2.2.2
      have h12 : ∀ m,
          getMD (slideLeftLoop (updMD s j fun md => { md with gap := md.gap - 1 })
            (j + 1) (i - j)) m =
          ⟨(if j + 1 ≤ m ∧ m ≤ i then (getMD s m).offset - 1 else (getMD s m).offset),
           (if m = j then (getMD s m).gap - 1 else (getMD s m).gap),
           (getMD s m).threshold⟩ := by
        intro m
        rw [slideLeftLoop_meta, h1len, h1 m]
        by_cases hmj : m = j
        · subst hmj
          split_ifs <;> first | rfl | (exfalso; omega)
        · split_ifs <;> first | rfl | (exfalso; omega)
      have h12len : (slideLeftLoop (updMD s j fun md => { md with gap := md.gap - 1 })
          (j + 1) (i - j)).meta_data.length = s.meta_data.length :=
        (slideLeftLoop_scalars _ _ _).2.2.2.2.2.2.2.2.2.trans h1len
      refine ⟨j, rfl, hji, hgap0, hdeg, hwalk, ?_, ?_, ?_, ?_⟩
      · intro m
        rw [hs', getMD_updMD, h12len]
        by_cases hm : m = i
        · subst hm
          rw [if_pos (⟨rfl, by omega⟩ : m = m ∧ m < s.meta_data.length), h12 m]
        · rw [if_neg (fun hc => hm hc.1), h12 m]
      · intro m
        rw [hs', getMD_updMD, h12len]
        by_cases hm : m = i
        · subst hm
          rw [if_pos (⟨rfl, by omega⟩ : m = m ∧ m < s.meta_data.length), h12 m]
        · rw [if_neg (fun hc => hm hc.1), h12 m]
      · intro m
        rw [hs', getMD_updMD, h12len]
        by_cases hm : m = i
        · subst hm
          rw [if_pos (⟨rfl, by omega⟩ : m = m ∧ m < s.meta_data.length), h12 m]
          dsimp only
          by_cases hmj : m = j
          · subst hmj
            split_ifs <;> omega
          · rw [if_neg hmj, if_pos rfl, if_neg (fun hc => hmj hc.symm)]
        · rw [if_neg (fun hc => hm hc.1), h12 m, if_neg hm]
      · rw [hs']
        have hsc := slideLeftLoop_scalars (updMD s j fun md => { md with gap := md.gap - 1 })
          (j + 1) (i - j)
        have hup := updMD_scalars s j (fun md => { md with gap := md.gap - 1 })
        exact ⟨hsc.1.trans hup.1, hsc.2.1.trans hup.2.1, hsc.2.2.1.trans hup.2.2.1,
          hsc.2.2.2.1.trans hup.2.2.2.1, hsc.2.2.2.2.1.trans hup.2.2.2.2.1,
          hsc.2.2.2.2.2.1.trans hup.2.2.2.2.2.1,
          hsc.2.2.2.2.2.2.1.trans (congrArg List.length hup.2.2.2.2.2.2.1),
          hsc.2.2.2.2.2.2.2.1.trans hup.2.2.2.2.2.2.2.1,
          hsc.2.2.2.2.2.2.2.2.1.trans hup.2.2.2.2.2.2.2.2.1,
          ((updMD_scalars _ _ _).2.2.2.2.2.2.2.2.2).trans h12len⟩

end SlickHash

/-! ### The rightward gap slide: donor walk and loop characterization -/

namespace SlickHash

theorem findDonorRight_spec (s : SlickHash) (fuel : Nat) :
    ∀ sliding j, findDonorRight s fuel sliding = some j →
    sliding ≤ j ∧ (getMD s j).gap ≠ 0 ∧
    ∀ m, sliding ≤ m → m < j →
      (getMD s m).gap = 0 ∧ m ≠ s.number_of_blocks - 1 ∧
      (getMD s m).offset ≠ s.max_offset := by
  induction fuel with
  | zero =>
    intro sliding j h
    rw [findDonorRight] at h
    cases h
  | succ f ih =>
    intro sliding j h
    rw [findDonorRight] at h
    split at h
    case isTrue hgap =>
      split at h
      case isTrue => cases h
      case isFalse hstop =>
        obtain ⟨hstop1, hstop2⟩ := not_or.1 hstop
        obtain ⟨h1, h2, h3⟩ := ih (sliding + 1) j h
        refine ⟨by omega, h2, fun m hm1 hm2 => ?_⟩
        rcases Nat.eq_or_lt_of_le hm1 with heq | hlt
        · subst heq
          exact ⟨hgap, hstop1, hstop2⟩
        · exact h3 m (by omega) hm2
    case isFalse hgap =>
      cases h
      exact ⟨Nat.le_refl _, hgap, fun m hm1 hm2 => by omega⟩

theorem findDonorRight_le (s : SlickHash) (fuel : Nat) :
    ∀ sliding j, findDonorRight s fuel sliding = some j →
    sliding ≤ s.number_of_blocks - 1 → j ≤ s.number_of_blocks - 1 := by
  induction fuel with
  | zero =>
    intro sliding j h
    rw [findDonorRight] at h
    cases h
  | succ f ih =>
    intro sliding j h hs
    rw [findDonorRight] at h
    split at h
    case isTrue hgap =>
      split at h
      case isTrue => cases h
      case isFalse hstop =>
        obtain ⟨hstop1, hstop2⟩ := not_or.1 hstop
        exact ih (sliding + 1) j h (by omega)
    case isFalse hgap =>
      cases h
      exact hs

theorem slideRightStep_meta (s : SlickHash) (k m : Nat) :
    getMD (slideRightStep s k) m =
      if m = k ∧ k < s.meta_data.length then
        { getMD s m with offset := (getMD s m).offset + 1 }
      else getMD s m := by
  rw [slideRightStep]
  have h := getMD_updMD
    { s with main_table := s.main_table.set (block_end s k - 1) (cell s (block_start s k)) }
    k (fun md => { md with offset := md.offset + 1 }) m
  rw [h]
  by_cases hc : m = k ∧ k < s.meta_data.length
  · rw [if_pos hc, if_pos (by exact hc)]
    obtain ⟨rfl, _⟩ := hc
    rfl
  · rw [if_neg hc, if_neg (by exact hc)]
    rfl

theorem slideRightStep_scalars (s : SlickHash) (k : Nat) :
    (slideRightStep s k).block_size = s.block_size ∧
    (slideRightStep s k).number_of_blocks = s.number_of_blocks ∧
    (slideRightStep s k).main_table_size = s.main_table_size ∧
    (slideRightStep s k).max_slick_size = s.max_slick_size ∧
    (slideRightStep s k).max_offset = s.max_offset ∧
    (slideRightStep s k).max_threshold = s.max_threshold ∧
    (slideRightStep s k).main_table.length = s.main_table.length ∧
    (slideRightStep s k).backyard = s.backyard ∧
    (slideRightStep s k).no_elements_in_main_table = s.no_elements_in_main_table ∧
    (slideRightStep s k).meta_data.length = s.meta_data.length := by
  refine ⟨rfl, rfl, rfl, rfl, rfl, rfl, ?_, rfl, rfl, ?_⟩
  · simp [slideRightStep, updMD]
  · simp [slideRightStep, updMD]

theorem slideRightLoop_meta (s : SlickHash) (k n m : Nat) (hn : n ≤ k + 1) :
    getMD (slideRightLoop s k n) m =
      if k + 1 - n ≤ m ∧ m ≤ k ∧ m < s.meta_data.length then
        { getMD s m with offset := (getMD s m).offset + 1 }
      else getMD s m := by
  induction n generalizing s k with
  | zero =>
    rw [slideRightLoop]
    rw [if_neg (by omega)]
  | succ n ih =>
    rw [slideRightLoop, ih _ _ (by omega), slideRightStep_meta]
    have hlen : (slideRightStep s k).meta_data.length = s.meta_data.length :=
      (slideRightStep_scalars s k).2.2.2.2.2.2.2.2.2
    rw [hlen]
    by_cases hmk : m = k
    · subst hmk
      split_ifs <;> first | rfl | (exfalso; omega)
    · split_ifs <;> first | rfl | (exfalso; omega)

theorem slideRightLoop_scalars (s : SlickHash) (k n : Nat) :
    (slideRightLoop s k n).block_size = s.block_size ∧
    (slideRightLoop s k n).number_of_blocks = s.number_of_blocks ∧
    (slideRightLoop s k n).main_table_size = s.main_table_size ∧
    (slideRightLoop s k n).max_slick_size = s.max_slick_size ∧
    (slideRightLoop s k n).max_offset = s.max_offset ∧
    (slideRightLoop s k n).max_threshold = s.max_threshold ∧
    (slideRightLoop s k n).main_table.length = s.main_table.length ∧
    (slideRightLoop s k n).backyard = s.backyard ∧
    (slideRightLoop s k n).no_elements_in_main_table = s.no_elements_in_main_table ∧
    (slideRightLoop s k n).meta_data.length = s.meta_data.length := by
  induction n generalizing s k with
  | zero => exact ⟨rfl, rfl, rfl, rfl, rfl, rfl, rfl, rfl, rfl, rfl⟩
  | succ n ih =>
    rw [slideRightLoop]
    have h1 := ih (slideRightStep s k) (k - 1)
    have h2 := slideRightStep_scalars s k
    exact ⟨h1.1.trans h2.1, h1.2.1.trans h2.2.1, h1.2.2.1.trans h2.2.2.1,
      h1.2.2.2.1.trans h2.2.2.2.1, h1.2.2.2.2.1.trans h2.2.2.2.2.1,
      h1.2.2.2.2.2.1.trans h2.2.2.2.2.2.1, h1.2.2.2.2.2.2.1.trans h2.2.2.2.2.2.2.1,
      h1.2.2.2.2.2.2.2.1.trans h2.2.2.2.2.2.2.2.1,
      h1.2.2.2.2.2.2.2.2.1.trans h2.2.2.2.2.2.2.2.2.1,
      h1.2.2.2.2.2.2.2.2.2.trans h2.2.2.2.2.2.2.2.2.2⟩

end SlickHash

namespace SlickHash

/-- Master description of a successful rightward slide: the donor `j` found
by the walk right of `i`, the guards that held, and the exact effect on the
meta-data (offsets rise by one on `[i+1, j]`, the donor loses one gap, block
`i` gains one, thresholds untouched), with preservation of the rest. -/
theorem slide_right_true_spec (s : SlickHash) (i : Nat) (s' : SlickHash)
    (hlenN : s.meta_data.length = s.number_of_blocks) (hi : i < s.number_of_blocks)
    (hres : slide_gap_from_right s i = (true, s')) :
    i ≠ s.number_of_blocks - 1 ∧
    ∃ j, findDonorRight s s.number_of_blocks (i + 1) = some j ∧ i + 1 ≤ j ∧
      j ≤ s.number_of_blocks - 1 ∧
      (getMD s j).gap ≠ 0 ∧ (getMD s j).offset ≠ s.max_offset ∧
      ¬((getMD s j).gap = 1 ∧ block_start s j = block_end s j) ∧
      (∀ m, i + 1 ≤ m → m < j → (getMD s m).gap = 0 ∧ m ≠ s.number_of_blocks - 1 ∧
        (getMD s m).offset ≠ s.max_offset) ∧
      (∀ m, (getMD s' m).threshold = (getMD s m).threshold) ∧
      (∀ m, (getMD s' m).offset =
        if i + 1 ≤ m ∧ m ≤ j then (getMD s m).offset + 1 else (getMD s m).offset) ∧
      (∀ m, (getMD s' m).gap =
        if m = j then (getMD s m).gap - 1
        else if m = i then (getMD s m).gap + 1 else (getMD s m).gap) ∧
      s'.block_size = s.block_size ∧ s'.number_of_blocks = s.number_of_blocks ∧
      s'.main_table_size = s.main_table_size ∧ s'.max_slick_size = s.max_slick_size ∧
      s'.max_offset = s.max_offset ∧ s'.max_threshold = s.max_threshold ∧
      s'.main_table.length = s.main_table.length ∧ s'.backyard = s.backyard ∧
      s'.no_elements_in_main_table = s.no_elements_in_main_table ∧
      s'.meta_data.length = s.meta_data.length := by
  rw [slide_gap_from_right] at hres
  by_cases hlast : i = s.number_of_blocks - 1
  · rw [if_pos hlast] at hres
    simp at hres
  · rw [if_neg hlast] at hres
    refine ⟨hlast, ?_⟩
    cases hdon : findDonorRight s s.number_of_blocks (i + 1) with
    | none =>
      rw [hdon] at hres
      simp at hres
    | some j =>
      rw [hdon] at hres
      dsimp only at hres
      obtain ⟨hij, hgap0, hwalk⟩ := findDonorRight_spec s s.number_of_blocks (i + 1) j hdon
      have hjN : j ≤ s.number_of_blocks - 1 :=
        findDonorRight_le s s.number_of_blocks (i + 1) j hdon (by omega)
      by_cases hcap : (getMD s j).offset = s.max_offset
      · rw [if_pos hcap] at hres
        simp at hres
      · rw [if_neg hcap] at hres
        by_cases hdeg : (getMD s j).gap = 1 ∧ block_start s j = block_end s j
        · rw [if_pos hdeg] at hres
          simp at hres
        · rw [if_neg hdeg] at hres
          have hs' : s' =
              updMD (slideRightLoop (updMD
                { s with main_table := s.main_table.set (block_end s j) (cell s (block_start s j)) }
                j fun md => { md with offset := md.offset + 1, gap := md.gap - 1 })
                (j - 1) (j - 1 - i)) i (fun md => { md with gap := md.gap + 1 }) :=
            (congrArg Prod.snd hres).symm
          have hset_len :
              ({ s with main_table := s.main_table.set (block_end s j) (cell s (block_start s j)) } : SlickHash).meta_data.length = s.meta_data.length := rfl
          have h2 : ∀ m, getMD (updMD
              { s with main_table := s.main_table.set (block_end s j) (cell s (block_start s j)) }
              j fun md => { md with offset := md.offset + 1, gap := md.gap - 1 }) m =
              if m = j then
                { getMD s j with
                  offset := (getMD s j).offset + 1
                  gap := (getMD s j).gap - 1 }
              else getMD s m := by
            intro m
            rw [getMD_updMD, hset_len]
            by_cases hm : m = j
            · rw [if_pos ⟨hm, by omega⟩, if_pos hm]
              subst hm
              rfl
            · rw [if_neg (fun hc => hm hc.1), if_neg hm]
              rfl
          have h2len : (updMD
              { s with main_table := s.main_table.set (block_end s j) (cell s (block_start s j)) }
              j fun md => { md with offset := md.offset + 1, gap := md.gap - 1 }).meta_data.length =
              s.meta_data.length := (updMD_scalars _ _ _).2.2.2.2.2.2.2.2.2
          have h23 : ∀ m, getMD (slideRightLoop (updMD
              { s with main_table := s.main_table.set (block_end s j) (cell s (block_start s j)) }
              j fun md => { md with offset := md.offset + 1, gap := md.gap - 1 })
              (j - 1) (j - 1 - i)) m =
              ⟨(if i + 1 ≤ m ∧ m ≤ j then (getMD s m).offset + 1 else (getMD s m).offset),
               (if m = j then (getMD s m).gap - 1 else (getMD s m).gap),
               (getMD s m).threshold⟩ := by
            intro m
            rw [slideRightLoop_meta _ _ _ _ (by omega), h2len, h2 m]
            by_cases hmj : m = j
            · subst hmj
              split_ifs <;> first | rfl | (exfalso; omega)
            · split_ifs <;> first | rfl | (exfalso; omega)
          have h23len : (slideRightLoop (updMD
              { s with main_table := s.main_table.set (block_end s j) (cell s (block_start s j)) }
              j fun md => { md with offset := md.offset + 1, gap := md.gap - 1 })
              (j - 1) (j - 1 - i)).meta_data.length = s.meta_data.length :=
            (slideRightLoop_scalars _ _ _).2.2.2.2.2.2.2.2.2.trans h2len
          refine ⟨j, rfl, hij, hjN, hgap0, hcap, hdeg, hwalk, ?_, ?_, ?_, ?_⟩
          · intro m
            rw [hs', getMD_updMD, h23len]
            by_cases hm : m = i
            · subst hm
              rw [if_pos (⟨rfl, by omega⟩ : m = m ∧ m < s.meta_data.length), h23 m]
            · rw [if_neg (fun hc => hm hc.1), h23 m]
          · intro m
            rw [hs', getMD_updMD, h23len]
            by_cases hm : m = i
            · subst hm
              rw [if_pos (⟨rfl, by omega⟩ : m = m ∧ m < s.meta_data.length), h23 m]
            · rw [if_neg (fun hc => hm hc.1), h23 m]
          · intro m
            rw [hs', getMD_updMD, h23len]
            by_cases hm : m = i
            · subst hm
              rw [if_pos (⟨rfl, by omega⟩ : m = m ∧ m < s.meta_data.length), h23 m]
              dsimp only
              by_cases hmj : m = j
              · exfalso
                omega
              · rw [if_neg hmj, if_neg hmj, if_pos rfl]
            · rw [if_neg (fun hc => hm hc.1), h23 m, if_neg hm]
          · rw [hs']
            have hsc := slideRightLoop_scalars (updMD
              { s with main_table := s.main_table.set (block_end s j) (cell s (block_start s j)) }
              j fun md => { md with offset := md.offset + 1, gap := md.gap - 1 })
              (j - 1) (j - 1 - i)
            have hup := updMD_scalars
              { s with main_table := s.main_table.set (block_end s j) (cell s (block_start s j)) }
              j (fun md => { md with offset := md.offset + 1, gap := md.gap - 1 })
            refine ⟨hsc.1.trans hup.1, hsc.2.1.trans hup.2.1, hsc.2.2.1.trans hup.2.2.1,
              hsc.2.2.2.1.trans hup.2.2.2.1, hsc.2.2.2.2.1.trans hup.2.2.2.2.1,
              hsc.2.2.2.2.2.1.trans hup.2.2.2.2.2.1, ?_,
              hsc.2.2.2.2.2.2.2.1.trans hup.2.2.2.2.2.2.2.1,
              hsc.2.2.2.2.2.2.2.2.1.trans hup.2.2.2.2.2.2.2.2.1,
              ((updMD_scalars _ _ _).2.2.2.2.2.2.2.2.2).trans h23len⟩
            calc ((updMD (slideRightLoop _ _ _) i _).main_table).length
                = (slideRightLoop (updMD
                    { s with main_table := s.main_table.set (block_end s j) (cell s (block_start s j)) }
                    j fun md => { md with offset := md.offset + 1, gap := md.gap - 1 })
                    (j - 1) (j - 1 - i)).main_table.length := rfl
              _ = _ := hsc.2.2.2.2.2.2.1.trans
                  ((congrArg List.length hup.2.2.2.2.2.2.1).trans (by simp))
end SlickHash

namespace SlickHash

theorem sumLens_congr (s s' : SlickHash) (hN : s'.number_of_blocks = s.number_of_blocks)
    (h : ∀ m, m < s.number_of_blocks → blockLen s' m = blockLen s m) :
    sumLens s' = sumLens s := by
  rw [sumLens, sumLens, hN]
  exact Finset.sum_congr rfl (fun m hm => h m (Finset.mem_range.1 hm))

/-- A successful leftward slide preserves well-formedness, every block's
length, and leaves block `i` with at least one gap cell. -/
theorem slide_left_wf (s : SlickHash) (i : Nat) (s' : SlickHash) (hWF : WF s)
    (hi : i < s.number_of_blocks) (hres : slide_gap_from_left s i = (true, s')) :
    WF s' ∧ (∀ m, m < s.number_of_blocks → blockLen s' m = blockLen s m) ∧
    1 ≤ (getMD s' i).gap := by
  obtain ⟨hbs, hms, hmo, hmt, hpos, hsz, htlen, hmdlen⟩ := hWF.fields
  obtain ⟨j, hdon, hji, hgap0, hdeg, hwalk, hthr, hoff, hgap, hsc⟩ :=
    slide_left_true_spec s i s' hmdlen hi hres
  obtain ⟨hbs', hN', hms', hmx', hmo', hmt', htl', hby', hcnt', hml'⟩ := hsc
  have hsz10 : s.main_table_size = 10 * s.number_of_blocks := by rw [hsz, hbs]
  have hgeom' : ∀ m, m < s.number_of_blocks →
      (if m + 1 = s.number_of_blocks then (getMD s' m).offset + (getMD s' m).gap ≤ 10
       else 10 * m + (getMD s' m).offset + (getMD s' m).gap ≤
         10 * (m + 1) + (getMD s' (m + 1)).offset) := by
    intro m hm
    have hgeo := hWF.geom hm
    rw [hbs] at hgeo
    rw [hoff m, hoff (m + 1), hgap m]
    by_cases hmN : m + 1 = s.number_of_blocks
    · rw [if_pos hmN]
      rw [if_pos hmN] at hgeo
      by_cases hcond : j + 1 ≤ m ∧ m ≤ i
      · have hwm := hwalk m (by omega) (by omega)
        have hmi : m = i := by omega
        rw [if_pos hcond, if_pos hmi, if_neg (by omega : ¬ j = i)]
        omega
      · rw [if_neg hcond]
        by_cases hmi : m = i
        · rw [if_pos hmi, if_pos (by omega : j = i)]
          omega
        · rw [if_neg hmi]
          by_cases hmj : m = j
          · subst hmj
            rw [if_pos rfl]
            omega
          · rw [if_neg hmj]
            omega
    · rw [if_neg hmN]
      rw [if_neg hmN] at hgeo
      by_cases hcond : j + 1 ≤ m ∧ m ≤ i
      · have hwm := hwalk m (by omega) (by omega)
        by_cases hmi : m = i
        · rw [if_pos hcond, if_pos hmi, if_neg (by omega : ¬ j = i),
            if_neg (by omega : ¬ (j + 1 ≤ m + 1 ∧ m + 1 ≤ i))]
          omega
        · have hwm1 := hwalk (m + 1) (by omega) (by omega)
          rw [if_pos hcond, if_neg hmi, if_neg (by omega : ¬ m = j),
            if_pos (by omega : j + 1 ≤ m + 1 ∧ m + 1 ≤ i)]
          omega
      · rw [if_neg hcond]
        by_cases hmi : m = i
        · rw [if_pos hmi, if_pos (by omega : j = i),
            if_neg (by omega : ¬ (j + 1 ≤ m + 1 ∧ m + 1 ≤ i))]
          omega
        · by_cases hmj : m = j
          · subst hmj
            have hji' : m < i := by omega
            have hwm1 := hwalk (m + 1) (by omega) (by omega)
            rw [if_neg hmi, if_pos rfl,
              if_pos (by omega : m + 1 ≤ m + 1 ∧ m + 1 ≤ i)]
            omega
          · rw [if_neg hmi, if_neg hmj,
              if_neg (by omega : ¬ (j + 1 ≤ m + 1 ∧ m + 1 ≤ i))]
            omega
  have hgeom'wf : ∀ m, m < s'.number_of_blocks →
      (if m + 1 = s'.number_of_blocks then
        (getMD s' m).offset + (getMD s' m).gap ≤ s'.block_size
       else s'.block_size * m + (getMD s' m).offset + (getMD s' m).gap ≤
         s'.block_size * (m + 1) + (getMD s' (m + 1)).offset) := by
    intro m hm
    rw [hN'] at hm
    have := hgeom' m hm
    rw [hN', hbs', hbs]
    exact this
  have hsz10' : s'.main_table_size = s'.block_size * s'.number_of_blocks := by
    rw [hms', hN', hbs', hsz]
  have hchar : ∀ m, m < s.number_of_blocks → block_end s m + (getMD s m).gap =
      if m + 1 = s.number_of_blocks then s.main_table_size
      else 10 * (m + 1) + (getMD s (m + 1)).offset := by
    intro m hm
    have h := block_end_add_gap s m (hWF.geom hm) hm hsz
    rw [hbs] at h
    exact h
  have hchar' : ∀ m, m < s.number_of_blocks → block_end s' m + (getMD s' m).gap =
      if m + 1 = s.number_of_blocks then s.main_table_size
      else 10 * (m + 1) + (getMD s' (m + 1)).offset := by
    intro m hm
    have h := block_end_add_gap s' m (hgeom'wf m (by omega)) (by omega) hsz10'
    rw [hbs', hbs, hN', hms'] at h
    exact h
  have hstart : ∀ m, block_start s' m =
      10 * m + (if j + 1 ≤ m ∧ m ≤ i then (getMD s m).offset - 1 else (getMD s m).offset) := by
    intro m
    rw [block_start, hbs', hbs, hoff m]
  have hstartS : ∀ m, block_start s m = 10 * m + (getMD s m).offset := by
    intro m
    rw [block_start, hbs]
  have hlen : ∀ m, m < s.number_of_blocks → blockLen s' m = blockLen s m := by
    intro m hm
    have hc1 := hchar m hm
    have hc2 := hchar' m hm
    have hgm := hgap m
    have hom := hoff m
    have hom1 := hoff (m + 1)
    rw [blockLen, blockLen, hstart m, hstartS m]
    by_cases hmN : m + 1 = s.number_of_blocks
    · rw [if_pos hmN] at hc1 hc2
      by_cases hcond : j + 1 ≤ m ∧ m ≤ i
      · have hwm := hwalk m (by omega) (by omega)
        have hmi : m = i := by omega
        rw [if_pos hmi, if_neg (by omega : ¬ j = i)] at hgm
        rw [if_pos hcond]
        omega
      · rw [if_neg hcond]
        by_cases hmi : m = i
        · rw [if_pos hmi, if_pos (by omega : j = i)] at hgm
          omega
        · by_cases hmj : m = j
          · subst hmj
            rw [if_neg hmi, if_pos rfl] at hgm
            have hij : i = m := by omega
            exfalso
            omega
          · rw [if_neg hmi, if_neg hmj] at hgm
            omega
    · rw [if_neg hmN] at hc1 hc2
      by_cases hcond : j + 1 ≤ m ∧ m ≤ i
      · have hwm := hwalk m (by omega) (by omega)
        by_cases hmi : m = i
        · rw [if_pos hmi, if_neg (by omega : ¬ j = i)] at hgm
          rw [if_neg (by omega : ¬ (j + 1 ≤ m + 1 ∧ m + 1 ≤ i))] at hom1
          rw [if_pos hcond]
          omega
        · have hwm1 := hwalk (m + 1) (by omega) (by omega)
          rw [if_neg hmi, if_neg (by omega : ¬ m = j)] at hgm
          rw [if_pos (by omega : j + 1 ≤ m + 1 ∧ m + 1 ≤ i)] at hom1
          rw [if_pos hcond]
          omega
      · rw [if_neg hcond]
        by_cases hmi : m = i
        · rw [if_pos hmi, if_pos (by omega : j = i)] at hgm
          rw [if_neg (by omega : ¬ (j + 1 ≤ m + 1 ∧ m + 1 ≤ i))] at hom1
          omega
        · by_cases hmj : m = j
          · subst hmj
            rw [if_neg hmi, if_pos rfl] at hgm
            have hwm1 := hwalk (m + 1) (by omega) (by omega)
            rw [if_pos (by omega : m + 1 ≤ m + 1 ∧ m + 1 ≤ i)] at hom1
            omega
          · rw [if_neg hmi, if_neg hmj] at hgm
            rw [if_neg (by omega : ¬ (j + 1 ≤ m + 1 ∧ m + 1 ≤ i))] at hom1
            omega
  refine ⟨?_, hlen, ?_⟩
  · refine ⟨hbs'.trans hbs, hmx'.trans hms, hmo'.trans hmo, hmt'.trans hmt, by omega, ?_,
      ?_, ?_, ?_, ?_, ?_, ?_⟩
    · rw [hms', hsz, hbs', hN']
    · rw [htl', htlen, hms']
    · rw [hml', hmdlen, hN']
    · intro m hmm
      rw [List.mem_range, hN'] at hmm
      rw [hoff m, hmo'.trans hmo]
      have := hWF.offCap hmm
      rw [hmo] at this
      split_ifs <;> omega
    · intro m hmm
      rw [List.mem_range] at hmm
      exact hgeom'wf m hmm
    · intro m hmm hempty
      rw [List.mem_range, hN'] at hmm
      have hlm := hlen m hmm
      have hse := hWF.start_le_end hmm
      have hse' := start_le_end_of_geom s' m (hgeom'wf m (by omega)) (by omega) hsz10'
      have hempty0 : blockLen s m = 0 := by
        rw [← hlm, blockLen]
        omega
      have hemptyS : block_start s m = block_end s m := by
        rw [blockLen] at hempty0
        omega
      have hg1 := hWF.emptyGap hmm hemptyS
      rw [hgap m]
      by_cases hmi : m = i
      · rw [if_pos hmi]
        split_ifs <;> omega
      · rw [if_neg hmi]
        by_cases hmj : m = j
        · subst hmj
          rw [if_pos rfl]
          rw [hemptyS] at hdeg
          simp at hdeg
          omega
        · rw [if_neg hmj]
          omega
    · rw [hcnt', hWF.counter]
      exact (sumLens_congr s s' hN' hlen).symm
  · rw [hgap i]
    by_cases hij : j = i
    · subst hij
      rw [if_pos rfl, if_pos rfl]
      omega
    · rw [if_pos rfl, if_neg hij]
      omega

end SlickHash

namespace SlickHash

/-- A successful rightward slide preserves well-formedness, every block's
length, and leaves block `i` with at least one gap cell. -/
theorem slide_right_wf (s : SlickHash) (i : Nat) (s' : SlickHash) (hWF : WF s)
    (hi : i < s.number_of_blocks) (hres : slide_gap_from_right s i = (true, s')) :
    WF s' ∧ (∀ m, m < s.number_of_blocks → blockLen s' m = blockLen s m) ∧
    1 ≤ (getMD s' i).gap := by
  obtain ⟨hbs, hms, hmo, hmt, hpos, hsz, htlen, hmdlen⟩ := hWF.fields
  obtain ⟨hlast, j, hdon, hij, hjN, hgap0, hcap, hdeg, hwalk, hthr, hoff, hgap, hsc⟩ :=
    slide_right_true_spec s i s' hmdlen hi hres
  obtain ⟨hbs', hN', hms', hmx', hmo', hmt', htl', hby', hcnt', hml'⟩ := hsc
  rw [hmo] at hcap
  have hsz10 : s.main_table_size = 10 * s.number_of_blocks := by rw [hsz, hbs]
  have hwalkcap : ∀ m, i + 1 ≤ m → m < j → (getMD s m).gap = 0 ∧
      m ≠ s.number_of_blocks - 1 ∧ (getMD s m).offset ≠ 10 := by
    intro m h1 h2
    have := hwalk m h1 h2
    rw [hmo] at this
    exact this
  have hgeom' : ∀ m, m < s.number_of_blocks →
      (if m + 1 = s.number_of_blocks then (getMD s' m).offset + (getMD s' m).gap ≤ 10
       else 10 * m + (getMD s' m).offset + (getMD s' m).gap ≤
         10 * (m + 1) + (getMD s' (m + 1)).offset) := by
    intro m hm
    have hgeo := hWF.geom hm
    rw [hbs] at hgeo
    rw [hoff m, hoff (m + 1), hgap m]
    by_cases hmN : m + 1 = s.number_of_blocks
    · rw [if_pos hmN]
      rw [if_pos hmN] at hgeo
      by_cases hmj : m = j
      · subst hmj
        rw [if_pos rfl, if_pos (by omega : i + 1 ≤ m ∧ m ≤ m)]
        omega
      · rw [if_neg hmj]
        by_cases hmi : m = i
        · exfalso
          omega
        · rw [if_neg hmi]
          by_cases hcond : i + 1 ≤ m ∧ m ≤ j
          · have := hwalkcap m (by omega) (by omega)
            exfalso
            omega
          · rw [if_neg hcond]
            omega
    · rw [if_neg hmN]
      rw [if_neg hmN] at hgeo
      by_cases hmj : m = j
      · subst hmj
        rw [if_pos rfl, if_pos (by omega : i + 1 ≤ m ∧ m ≤ m),
          if_neg (by omega : ¬ (i + 1 ≤ m + 1 ∧ m + 1 ≤ m))]
        omega
      · rw [if_neg hmj]
        by_cases hmi : m = i
        · subst hmi
          rw [if_pos rfl, if_neg (by omega : ¬ (m + 1 ≤ m ∧ m ≤ j)),
            if_pos (by omega : m + 1 ≤ m + 1 ∧ m + 1 ≤ j)]
          omega
        · rw [if_neg hmi]
          by_cases hcond : i + 1 ≤ m ∧ m ≤ j
          · have hwm := hwalkcap m (by omega) (by omega)
            rw [if_pos hcond, if_pos (by omega : i + 1 ≤ m + 1 ∧ m + 1 ≤ j)]
            omega
          · rw [if_neg hcond,
              if_neg (by omega : ¬ (i + 1 ≤ m + 1 ∧ m + 1 ≤ j))]
            omega
  have hgeom'wf : ∀ m, m < s'.number_of_blocks →
      (if m + 1 = s'.number_of_blocks then
        (getMD s' m).offset + (getMD s' m).gap ≤ s'.block_size
       else s'.block_size * m + (getMD s' m).offset + (getMD s' m).gap ≤
         s'.block_size * (m + 1) + (getMD s' (m + 1)).offset) := by
    intro m hm
    rw [hN'] at hm
    have := hgeom' m hm
    rw [hN', hbs', hbs]
    exact this
  have hsz10' : s'.main_table_size = s'.block_size * s'.number_of_blocks := by
    rw [hms', hN', hbs', hsz]
  have hchar : ∀ m, m < s.number_of_blocks → block_end s m + (getMD s m).gap =
      if m + 1 = s.number_of_blocks then s.main_table_size
      else 10 * (m + 1) + (getMD s (m + 1)).offset := by
    intro m hm
    have h := block_end_add_gap s m (hWF.geom hm) hm hsz
    rw [hbs] at h
    exact h
  have hchar' : ∀ m, m < s.number_of_blocks → block_end s' m + (getMD s' m).gap =
      if m + 1 = s.number_of_blocks then s.main_table_size
      else 10 * (m + 1) + (getMD s' (m + 1)).offset := by
    intro m hm
    have h := block_end_add_gap s' m (hgeom'wf m (by omega)) (by omega) hsz10'
    rw [hbs', hbs, hN', hms'] at h
    exact h
  have hstart : ∀ m, block_start s' m =
      10 * m + (if i + 1 ≤ m ∧ m ≤ j then (getMD s m).offset + 1 else (getMD s m).offset) := by
    intro m
    rw [block_start, hbs', hbs, hoff m]
  have hstartS : ∀ m, block_start s m = 10 * m + (getMD s m).offset := by
    intro m
    rw [block_start, hbs]
  have hlen : ∀ m, m < s.number_of_blocks → blockLen s' m = blockLen s m := by
    intro m hm
    have hc1 := hchar m hm
    have hc2 := hchar' m hm
    have hgm := hgap m
    have hom1 := hoff (m + 1)
    have hgeo := hWF.geom hm
    rw [hbs] at hgeo
    rw [blockLen, blockLen, hstart m, hstartS m]
    by_cases hmN : m + 1 = s.number_of_blocks
    · rw [if_pos hmN] at hc1 hc2 hgeo
      by_cases hmj : m = j
      · subst hmj
        rw [if_pos rfl] at hgm
        rw [if_pos (by omega : i + 1 ≤ m ∧ m ≤ m)]
        omega
      · rw [if_neg hmj] at hgm
        by_cases hmi : m = i
        · exfalso
          omega
        · rw [if_neg hmi] at hgm
          rw [if_neg (by
            intro hcond
            have := hwalkcap m (by omega) (by omega)
            omega : ¬ (i + 1 ≤ m ∧ m ≤ j))]
          omega
    · rw [if_neg hmN] at hc1 hc2 hgeo
      by_cases hmj : m = j
      · subst hmj
        rw [if_pos rfl] at hgm
        rw [if_neg (by omega : ¬ (i + 1 ≤ m + 1 ∧ m + 1 ≤ m))] at hom1
        rw [if_pos (by omega : i + 1 ≤ m ∧ m ≤ m)]
        omega
      · rw [if_neg hmj] at hgm
        by_cases hmi : m = i
        · subst hmi
          rw [if_pos rfl] at hgm
          rw [if_pos (by omega : m + 1 ≤ m + 1 ∧ m + 1 ≤ j)] at hom1
          rw [if_neg (by omega : ¬ (m + 1 ≤ m ∧ m ≤ j))]
          omega
        · rw [if_neg hmi] at hgm
          by_cases hcond : i + 1 ≤ m ∧ m ≤ j
          · have hwm := hwalkcap m (by omega) (by omega)
            rw [if_pos (by omega : i + 1 ≤ m + 1 ∧ m + 1 ≤ j)] at hom1
            rw [if_pos hcond]
            omega
          · rw [if_neg (by omega : ¬ (i + 1 ≤ m + 1 ∧ m + 1 ≤ j))] at hom1
            rw [if_neg hcond]
            omega
  refine ⟨?_, hlen, ?_⟩
  · refine ⟨hbs'.trans hbs, hmx'.trans hms, hmo'.trans hmo, hmt'.trans hmt, by omega, ?_,
      ?_, ?_, ?_, ?_, ?_, ?_⟩
    · rw [hms', hsz, hbs', hN']
    · rw [htl', htlen, hms']
    · rw [hml', hmdlen, hN']
    · intro m hmm
      rw [List.mem_range, hN'] at hmm
      rw [hoff m, hmo'.trans hmo]
      have hcapm := hWF.offCap hmm
      rw [hmo] at hcapm
      by_cases hcond : i + 1 ≤ m ∧ m ≤ j
      · rw [if_pos hcond]
        by_cases hmj : m = j
        · subst hmj
          omega
        · have := hwalkcap m (by omega) (by omega)
          omega
      · rw [if_neg hcond]
        omega
    · intro m hmm
      rw [List.mem_range] at hmm
      exact hgeom'wf m hmm
    · intro m hmm hempty
      rw [List.mem_range, hN'] at hmm
      have hlm := hlen m hmm
      have hse := hWF.start_le_end hmm
      have hse' := start_le_end_of_geom s' m (hgeom'wf m (by omega)) (by omega) hsz10'
      have hempty0 : blockLen s m = 0 := by
        rw [← hlm, blockLen]
        omega
      have hemptyS : block_start s m = block_end s m := by
        rw [blockLen] at hempty0
        omega
      have hg1 := hWF.emptyGap hmm hemptyS
      rw [hgap m]
      by_cases hmj : m = j
      · subst hmj
        rw [if_pos rfl]
        rw [hemptyS] at hdeg
        simp at hdeg
        omega
      · rw [if_neg hmj]
        by_cases hmi : m = i
        · rw [if_pos hmi]
          omega
        · rw [if_neg hmi]
          omega
    · rw [hcnt', hWF.counter]
      exact (sumLens_congr s s' hN' hlen).symm
  · rw [hgap i]
    rw [if_neg (by omega : ¬ i = j), if_pos rfl]
    omega

end SlickHash

/-! ### Claim C8 -/

/-- Claim C8: a successful `slide_gap_from_left(i)` changes the offsets of
exactly the blocks in `[j+1, i]` (each down by one), where `j` is the donor
the leftward walk found; the donor's gap drops by one and block `i`'s gap
rises by one (cancelling when `j = i`); no other block's offset, gap or
threshold changes; and `start(k) ≤ end(k)` holds for every block of the
resulting state (it holds in the initial state by `WF`). -/
theorem c8_slide_left_frame (s : SlickHash) (i : Nat) (s' : SlickHash)
    (hWF : SlickHash.WF s) (hi : i < s.number_of_blocks)
    (hres : SlickHash.slide_gap_from_left s i = (true, s')) :
    ∃ j, SlickHash.findDonorLeft s i = some j ∧ j ≤ i ∧
      (∀ m, (SlickHash.getMD s' m).offset =
        if j + 1 ≤ m ∧ m ≤ i then (SlickHash.getMD s m).offset - 1
        else (SlickHash.getMD s m).offset) ∧
      (∀ m, m ≠ j → m ≠ i → (SlickHash.getMD s' m).gap = (SlickHash.getMD s m).gap) ∧
      (if j = i then (SlickHash.getMD s' i).gap = (SlickHash.getMD s i).gap
       else (SlickHash.getMD s' j).gap = (SlickHash.getMD s j).gap - 1 ∧
         (SlickHash.getMD s' i).gap = (SlickHash.getMD s i).gap + 1) ∧
      (∀ m, (SlickHash.getMD s' m).threshold = (SlickHash.getMD s m).threshold) ∧
      (∀ m, m < s.number_of_blocks →
        SlickHash.block_start s' m ≤ SlickHash.block_end s' m) := by
  have hmdlen := hWF.fields.2.2.2.2.2.2.2
  obtain ⟨j, hdon, hji, hgap0, hdeg, hwalk, hthr, hoff, hgap, hsc⟩ :=
    SlickHash.slide_left_true_spec s i s' hmdlen hi hres
  obtain ⟨hWF', hlen, hgapi⟩ := SlickHash.slide_left_wf s i s' hWF hi hres
  refine ⟨j, hdon, hji, hoff, ?_, ?_, hthr, ?_⟩
  · intro m hmj hmi
    rw [hgap m, if_neg hmi, if_neg hmj]
  · by_cases hij : j = i
    · rw [if_pos hij, hgap i, if_pos rfl, if_pos hij]
    · rw [if_neg hij]
      constructor
      · rw [hgap j, if_neg (by omega : ¬ j = i), if_pos rfl]
      · rw [hgap i, if_pos rfl, if_neg hij]
  · intro m hm
    have hN' := hsc.2.1
    exact hWF'.start_le_end (by omega)

/-- Witness for `c8_slide_left_frame`: block 1 of the two-block example
borrows a gap cell from block 0 (donor `j = 0`). -/
theorem c8_witness :
    ∃ j, SlickHash.findDonorLeft exampleSlideTable 1 = some j ∧ j ≤ 1 ∧
      (∀ m, (SlickHash.getMD (SlickHash.slide_gap_from_left exampleSlideTable 1).2 m).offset =
        if j + 1 ≤ m ∧ m ≤ 1 then (SlickHash.getMD exampleSlideTable m).offset - 1
        else (SlickHash.getMD exampleSlideTable m).offset) ∧
      (∀ m, m ≠ j → m ≠ 1 →
        (SlickHash.getMD (SlickHash.slide_gap_from_left exampleSlideTable 1).2 m).gap =
          (SlickHash.getMD exampleSlideTable m).gap) ∧
      (if j = 1 then
        (SlickHash.getMD (SlickHash.slide_gap_from_left exampleSlideTable 1).2 1).gap =
          (SlickHash.getMD exampleSlideTable 1).gap
       else
        (SlickHash.getMD (SlickHash.slide_gap_from_left exampleSlideTable 1).2 j).gap =
          (SlickHash.getMD exampleSlideTable j).gap - 1 ∧
        (SlickHash.getMD (SlickHash.slide_gap_from_left exampleSlideTable 1).2 1).gap =
          (SlickHash.getMD exampleSlideTable 1).gap + 1) ∧
      (∀ m, (SlickHash.getMD (SlickHash.slide_gap_from_left exampleSlideTable 1).2 m).threshold =
        (SlickHash.getMD exampleSlideTable m).threshold) ∧
      (∀ m, m < exampleSlideTable.number_of_blocks →
        SlickHash.block_start (SlickHash.slide_gap_from_left exampleSlideTable 1).2 m ≤
          SlickHash.block_end (SlickHash.slide_gap_from_left exampleSlideTable 1).2 m) :=
  c8_slide_left_frame exampleSlideTable 1 (SlickHash.slide_gap_from_left exampleSlideTable 1).2
    (by decide) (by decide) (by decide)

namespace SlickHash

theorem hash_threshold_congr (ht : Nat → Nat) (s s' : SlickHash)
    (h : s'.max_threshold = s.max_threshold) (k : Nat) :
    hash_threshold ht s' k = hash_threshold ht s k := by
  rw [hash_threshold, hash_threshold, h]

theorem insert_into_backyard_frame (s : SlickHash) (k v : Nat) :
    ((insert_into_backyard s k v).2).main_table = s.main_table ∧
    ((insert_into_backyard s k v).2).meta_data = s.meta_data ∧
    ((insert_into_backyard s k v).2).no_elements_in_main_table =
      s.no_elements_in_main_table ∧
    ((insert_into_backyard s k v).2).block_size = s.block_size ∧
    ((insert_into_backyard s k v).2).number_of_blocks = s.number_of_blocks ∧
    ((insert_into_backyard s k v).2).main_table_size = s.main_table_size ∧
    ((insert_into_backyard s k v).2).max_slick_size = s.max_slick_size ∧
    ((insert_into_backyard s k v).2).max_offset = s.max_offset ∧
    ((insert_into_backyard s k v).2).max_threshold = s.max_threshold := by
  rw [insert_into_backyard]
  cases byFind s.backyard k <;> exact ⟨rfl, rfl, rfl, rfl, rfl, rfl, rfl, rfl, rfl⟩

theorem byFind_insert_other (s : SlickHash) (k v k' : Nat) (h : k ≠ k') :
    byFind ((insert_into_backyard s k v).2).backyard k' = byFind s.backyard k' := by
  rw [insert_into_backyard]
  cases byFind s.backyard k with
  | some w => rfl
  | none =>
    show byFind ((k, v) :: s.backyard) k' = byFind s.backyard k'
    rw [byFind, byFind, List.find?_cons_of_neg]
    simp [h]

theorem sumLens_dec (s s' : SlickHash) (bi : Nat)
    (hN : s'.number_of_blocks = s.number_of_blocks) (hbi : bi < s.number_of_blocks)
    (hoth : ∀ m, m < s.number_of_blocks → m ≠ bi → blockLen s' m = blockLen s m)
    (hlen : blockLen s' bi + 1 = blockLen s bi) :
    sumLens s' + 1 = sumLens s := by
  rw [sumLens, sumLens, hN]
  have h1 : bi ∈ Finset.range s.number_of_blocks := Finset.mem_range.2 hbi
  rw [← Finset.sum_erase_add _ _ h1, ← Finset.sum_erase_add _ (fun x => block_end s x - block_start s x) h1]
  have hcong : ∑ x ∈ (Finset.range s.number_of_blocks).erase bi,
      (block_end s' x - block_start s' x) =
      ∑ x ∈ (Finset.range s.number_of_blocks).erase bi,
      (block_end s x - block_start s x) :=
    Finset.sum_congr rfl (fun m hm =>
      hoth m (Finset.mem_range.1 (Finset.mem_of_mem_erase hm)) (Finset.ne_of_mem_erase hm))
  rw [hcong]
  rw [blockLen, blockLen] at hlen
  omega

theorem sumLens_inc (s s' : SlickHash) (bi : Nat)
    (hN : s'.number_of_blocks = s.number_of_blocks) (hbi : bi < s.number_of_blocks)
    (hoth : ∀ m, m < s.number_of_blocks → m ≠ bi → blockLen s' m = blockLen s m)
    (hlen : blockLen s' bi = blockLen s bi + 1) :
    sumLens s' = sumLens s + 1 := by
  rw [sumLens, sumLens, hN]
  have h1 : bi ∈ Finset.range s.number_of_blocks := Finset.mem_range.2 hbi
  rw [← Finset.sum_erase_add _ _ h1, ← Finset.sum_erase_add _ (fun x => block_end s x - block_start s x) h1]
  have hcong : ∑ x ∈ (Finset.range s.number_of_blocks).erase bi,
      (block_end s' x - block_start s' x) =
      ∑ x ∈ (Finset.range s.number_of_blocks).erase bi,
      (block_end s x - block_start s x) :=
    Finset.sum_congr rfl (fun m hm =>
      hoth m (Finset.mem_range.1 (Finset.mem_of_mem_erase hm)) (Finset.ne_of_mem_erase hm))
  rw [hcong]
  rw [blockLen, blockLen] at hlen
  omega

theorem sumLens_ge_block (s : SlickHash) (bi : Nat) (hbi : bi < s.number_of_blocks) :
    blockLen s bi ≤ sumLens s := by
  rw [sumLens, blockLen]
  exact Finset.single_le_sum (f := fun m => block_end s m - block_start s m)
    (fun m _ => Nat.zero_le _) (Finset.mem_range.2 hbi)

end SlickHash

namespace SlickHash

/-- Updating only the gap of a meta-data record keeps the offset. -/
theorem md_setGap_offset (md : SlickHashMetaData) (g : Nat) :
    ({ md with gap := g } : SlickHashMetaData).offset = md.offset := rfl

/-- Updating only the gap of a meta-data record sets the gap. -/
theorem md_setGap_gap (md : SlickHashMetaData) (g : Nat) :
    ({ md with gap := g } : SlickHashMetaData).gap = g := rfl

/-- Updating only the gap of a meta-data record keeps the threshold. -/
theorem md_setGap_threshold (md : SlickHashMetaData) (g : Nat) :
    ({ md with gap := g } : SlickHashMetaData).threshold = md.threshold := rfl

/-- Full characterization of the bumping scan, by induction on the (exact)
fuel `block_end - j`: well-formedness is preserved; only block `bi`'s gap
changes among the meta-data (growing by one per eviction); every cell of the
final range either was vetted before `j` or is scanned, so all carry a
threshold hash at least `t'`; the final range's cells all come from the
original range; the backyard is unchanged at keys absent from the scanned
cells; and an entry under `t'` in the scanned range forces at least one gap
cell at exit. -/
theorem bumpLoop_spec (ht : Nat → Nat) (bi t' : Nat) :
    ∀ fuel s j, WF s → bi < s.number_of_blocks → block_start s bi ≤ j →
    fuel = block_end s bi - j →
    (∀ idx, block_start s bi ≤ idx → idx < j →
      t' ≤ hash_threshold ht s (cell s idx).1) →
    WF (bumpLoop ht fuel s bi j t') ∧
    (∀ m, m ≠ bi → getMD (bumpLoop ht fuel s bi j t') m = getMD s m) ∧
    (getMD (bumpLoop ht fuel s bi j t') bi).offset = (getMD s bi).offset ∧
    (getMD (bumpLoop ht fuel s bi j t') bi).threshold = (getMD s bi).threshold ∧
    (getMD s bi).gap ≤ (getMD (bumpLoop ht fuel s bi j t') bi).gap ∧
    (bumpLoop ht fuel s bi j t').block_size = s.block_size ∧
    (bumpLoop ht fuel s bi j t').number_of_blocks = s.number_of_blocks ∧
    (bumpLoop ht fuel s bi j t').main_table_size = s.main_table_size ∧
    (bumpLoop ht fuel s bi j t').max_slick_size = s.max_slick_size ∧
    (bumpLoop ht fuel s bi j t').max_offset = s.max_offset ∧
    (bumpLoop ht fuel s bi j t').max_threshold = s.max_threshold ∧
    (bumpLoop ht fuel s bi j t').main_table.length = s.main_table.length ∧
    (∀ idx, block_start s bi ≤ idx → idx < block_end (bumpLoop ht fuel s bi j t') bi →
      t' ≤ hash_threshold ht s (cell (bumpLoop ht fuel s bi j t') idx).1) ∧
    (∀ idx, block_start s bi ≤ idx → idx < block_end (bumpLoop ht fuel s bi j t') bi →
      ∃ idx0, block_start s bi ≤ idx0 ∧ idx0 < block_end s bi ∧
        cell (bumpLoop ht fuel s bi j t') idx = cell s idx0) ∧
    (∀ k, (∀ idx, j ≤ idx → idx < block_end s bi → (cell s idx).1 ≠ k) →
      byFind (bumpLoop ht fuel s bi j t').backyard k = byFind s.backyard k) ∧
    ((∃ idx, j ≤ idx ∧ idx < block_end s bi ∧
        hash_threshold ht s (cell s idx).1 < t') →
      1 ≤ (getMD (bumpLoop ht fuel s bi j t') bi).gap) := by
  intro fuel
  induction fuel with
  | zero =>
    intro s j hWF hbi hjl hfuel hvet
    have hje : block_end s bi ≤ j := by omega
    rw [bumpLoop]
    refine ⟨hWF, fun m _ => rfl, rfl, rfl, Nat.le_refl _, rfl, rfl, rfl, rfl, rfl, rfl, rfl,
      ?_, ?_, fun k _ => rfl, ?_⟩
    · intro idx h1 h2
      exact hvet idx h1 (by omega)
    · intro idx h1 h2
      exact ⟨idx, h1, h2, rfl⟩
    · intro hex
      obtain ⟨idx, h1, h2, _⟩ := hex
      omega
  | succ fuel ih =>
    intro s j hWF hbi hjl hfuel hvet
    obtain ⟨hbs, hms, hmo, hmt, hpos, hsz, htlen, hmdlen⟩ := hWF.fields
    have hunf : bumpLoop ht (fuel + 1) s bi j t' =
        (if j < block_end s bi then
          (if hash_threshold ht s (cell s j).1 < t' then
            bumpLoop ht fuel
              (updMD { (insert_into_backyard s (cell s j).1 (cell s j).2).2 with
                no_elements_in_main_table :=
                  ((insert_into_backyard s (cell s j).1 (cell s j).2).2).no_elements_in_main_table - 1,
                main_table :=
                  ((insert_into_backyard s (cell s j).1 (cell s j).2).2).main_table.set j
                    (cell ((insert_into_backyard s (cell s j).1 (cell s j).2).2)
                      (block_end s bi - 1)) }
                bi (fun md => { md with gap := md.gap + 1 })) bi j t'
          else bumpLoop ht fuel s bi (j + 1) t')
        else s) := rfl
    by_cases hj : j < block_end s bi
    · rw [if_pos hj] at hunf
      by_cases hcond : hash_threshold ht s (cell s j).1 < t'
      · rw [if_pos hcond] at hunf
        -- the evicting step
        set s1 := (insert_into_backyard s (cell s j).1 (cell s j).2).2 with hs1def
        have hfr := insert_into_backyard_frame s (cell s j).1 (cell s j).2
        rw [← hs1def] at hfr
        set s3 := updMD { s1 with
          no_elements_in_main_table := s1.no_elements_in_main_table - 1,
          main_table := s1.main_table.set j (cell s1 (block_end s bi - 1)) }
          bi (fun md => { md with gap := md.gap + 1 }) with hs3def
        rw [hunf]
        have hchar := block_end_add_gap s bi (hWF.geom hbi) hbi hsz
        have hjM : j < s.main_table.length := by
          have := hWF.end_le_size hbi
          omega
        -- meta-data of s3
        have h2meta : ({ s1 with
            no_elements_in_main_table := s1.no_elements_in_main_table - 1,
            main_table := s1.main_table.set j (cell s1 (block_end s bi - 1)) } :
            SlickHash).meta_data = s.meta_data := hfr.2.1
        have hmd3 : ∀ m, getMD s3 m =
            if m = bi then { getMD s bi with gap := (getMD s bi).gap + 1 }
            else getMD s m := by
          intro m
          show (s1.meta_data.set bi
            ((fun md => { md with gap := md.gap + 1 })
              (s1.meta_data.getD bi ⟨0, 0, 0⟩))).getD m ⟨0, 0, 0⟩ = _
          rw [hfr.2.1, getD_set]
          by_cases hm : m = bi
          · rw [if_pos ⟨hm, by omega⟩, if_pos hm]
            subst hm
            exact rfl
          · rw [if_neg (fun hc => hm hc.1), if_neg hm]
            exact rfl
        -- cells of s3
        have hcell3 : ∀ x, cell s3 x =
            if x = j then cell s (block_end s bi - 1) else cell s x := by
          intro x
          have h1 : s1.main_table = s.main_table := hfr.1
          show (s1.main_table.set j (s1.main_table.getD (block_end s bi - 1) (0, 0))).getD
            x (0, 0) = _
          rw [h1, getD_set]
          by_cases hx : x = j
          · rw [if_pos ⟨hx, hjM⟩, if_pos hx]
            exact rfl
          · rw [if_neg (fun hc => hx hc.1), if_neg hx]
            exact rfl
        -- scalar components of s3
        have hsc3 : s3.block_size = s.block_size ∧ s3.number_of_blocks = s.number_of_blocks ∧
            s3.main_table_size = s.main_table_size ∧ s3.max_slick_size = s.max_slick_size ∧
            s3.max_offset = s.max_offset ∧ s3.max_threshold = s.max_threshold ∧
            s3.main_table.length = s.main_table.length ∧
            s3.meta_data.length = s.meta_data.length ∧
            s3.no_elements_in_main_table + 1 = s.no_elements_in_main_table ∧
            s3.backyard = s1.backyard := by
          have hcnt1 : s1.no_elements_in_main_table = s.no_elements_in_main_table := hfr.2.2.1
          have hlen1 : s3.main_table.length = s.main_table.length := by
            show (s1.main_table.set j (cell s1 (block_end s bi - 1))).length =
              s.main_table.length
            rw [List.length_set, hfr.1]
          have hml3 : s3.meta_data.length = s.meta_data.length := by
            show (s1.meta_data.set bi
              ((fun md => { md with gap := md.gap + 1 })
                (s1.meta_data.getD bi ⟨0, 0, 0⟩))).length = s.meta_data.length
            rw [List.length_set, hfr.2.1]
          have hcnt3 : s3.no_elements_in_main_table + 1 = s.no_elements_in_main_table := by
            show s1.no_elements_in_main_table - 1 + 1 = s.no_elements_in_main_table
            rw [hcnt1]
            -- the counter is at least the current block's length, which is positive
            have hc := hWF.counter
            have hblen := sumLens_ge_block s bi hbi
            rw [blockLen] at hblen
            omega
          exact ⟨hfr.2.2.2.1, hfr.2.2.2.2.1, hfr.2.2.2.2.2.1, hfr.2.2.2.2.2.2.1,
            hfr.2.2.2.2.2.2.2.1, hfr.2.2.2.2.2.2.2.2, hlen1, hml3, hcnt3, rfl⟩
        -- geometry of s3
        have hgeom3 : ∀ m, m < s.number_of_blocks →
            (if m + 1 = s.number_of_blocks then
              (getMD s3 m).offset + (getMD s3 m).gap ≤ s.block_size
             else s.block_size * m + (getMD s3 m).offset + (getMD s3 m).gap ≤
               s.block_size * (m + 1) + (getMD s3 (m + 1)).offset) := by
          intro m hm
          have hgeo := hWF.geom hm
          rw [hmd3 m, hmd3 (m + 1)]
          by_cases hmbi : m = bi
          · subst hmbi
            rw [if_pos rfl, if_neg (by omega : ¬ m + 1 = m)]
            by_cases hmN : m + 1 = s.number_of_blocks
            · rw [if_pos hmN]
              rw [if_pos hmN] at hgeo hchar
              rw [block_start, hbs] at hjl
              rw [hsz, hbs] at hchar
              rw [hbs] at hgeo ⊢
              simp only [md_setGap_offset, md_setGap_gap]
              omega
            · rw [if_neg hmN]
              rw [if_neg hmN] at hgeo hchar
              rw [block_start, hbs] at hjl
              rw [hbs] at hgeo hchar ⊢
              simp only [md_setGap_offset, md_setGap_gap]
              omega
          · rw [if_neg hmbi]
            by_cases hm1bi : m + 1 = bi
            · rw [if_pos hm1bi]
              by_cases hmN : m + 1 = s.number_of_blocks
              · rw [if_pos hmN]
                rw [if_pos hmN] at hgeo
                exact hgeo
              · rw [if_neg hmN]
                rw [if_neg hmN] at hgeo
                rw [md_setGap_offset, ← hm1bi]
                exact hgeo
            · rw [if_neg hm1bi]
              exact hgeo
        have hgeom3wf : ∀ m, m < s3.number_of_blocks →
            (if m + 1 = s3.number_of_blocks then
              (getMD s3 m).offset + (getMD s3 m).gap ≤ s3.block_size
             else s3.block_size * m + (getMD s3 m).offset + (getMD s3 m).gap ≤
               s3.block_size * (m + 1) + (getMD s3 (m + 1)).offset) := by
          intro m hm
          rw [hsc3.2.1] at hm
          rw [hsc3.2.1, hsc3.1]
          exact hgeom3 m hm
        -- start and end of s3
        have hstart3 : ∀ m, block_start s3 m = block_start s m := by
          intro m
          rw [block_start, block_start, hsc3.1, hmd3 m]
          by_cases hm : m = bi
          · rw [if_pos hm]
            simp only [md_setGap_offset]
            rw [hm]
          · rw [if_neg hm]
        have hchar3 := block_end_add_gap s3 bi (hgeom3wf bi (by omega)) (by omega)
          (by rw [hsc3.2.2.1, hsc3.1, hsc3.2.1]; exact hsz)
        rw [hsc3.2.1, hsc3.2.2.1, hsc3.1] at hchar3
        have hend3 : ∀ m, m < s.number_of_blocks → m ≠ bi →
            block_end s3 m = block_end s m := by
          intro m hm hmbi
          rw [block_end, block_end, hsc3.2.1, hsc3.2.2.1, hsc3.1, hmd3 m, hmd3 (m + 1),
            if_neg hmbi]
          by_cases hm1 : m + 1 = bi
          · rw [if_pos hm1]
            simp only [md_setGap_offset]
            rw [← hm1]
          · rw [if_neg hm1]
        have hendbi3 : block_end s3 bi + 1 = block_end s bi := by
          rw [hmd3 bi, if_pos rfl] at hchar3
          simp only [md_setGap_gap] at hchar3
          by_cases hmN : bi + 1 = s.number_of_blocks
          · rw [if_pos hmN] at hchar3 hchar
            omega
          · rw [if_neg hmN] at hchar3 hchar
            rw [hmd3 (bi + 1), if_neg (by omega : ¬ bi + 1 = bi)] at hchar3
            omega
        -- well-formedness of s3
        have hWF3 : WF s3 := by
          refine ⟨hsc3.1.trans hbs, hsc3.2.2.2.1.trans hms, hsc3.2.2.2.2.1.trans hmo,
            hsc3.2.2.2.2.2.1.trans hmt, by omega, ?_, ?_, ?_, ?_, ?_, ?_, ?_⟩
          · rw [hsc3.2.2.1, hsz, hsc3.1, hsc3.2.1]
          · rw [hsc3.2.2.2.2.2.2.1, htlen, hsc3.2.2.1]
          · rw [hsc3.2.2.2.2.2.2.2.1, hmdlen, hsc3.2.1]
          · intro m hmm
            rw [List.mem_range, hsc3.2.1] at hmm
            rw [hmd3 m, hsc3.2.2.2.2.1]
            have := hWF.offCap hmm
            by_cases hm : m = bi
            · subst hm
              rw [if_pos rfl]
              simp only [md_setGap_offset]
              exact this
            · rw [if_neg hm]
              exact this
          · intro m hmm
            rw [List.mem_range] at hmm
            exact hgeom3wf m hmm
          · intro m hmm hempty
            rw [List.mem_range, hsc3.2.1] at hmm
            rw [hmd3 m]
            by_cases hm : m = bi
            · rw [if_pos hm]
              simp only [md_setGap_gap]
              omega
            · rw [if_neg hm]
              rw [hstart3 m, hend3 m hmm hm] at hempty
              exact hWF.emptyGap hmm hempty
          · have hsum : sumLens s3 + 1 = sumLens s := by
              refine sumLens_dec s s3 bi hsc3.2.1 hbi ?_ ?_
              · intro m hm hmbi
                rw [blockLen, blockLen, hstart3 m, hend3 m hm hmbi]
              · rw [blockLen, blockLen, hstart3 bi]
                have hse := hWF.start_le_end hbi
                omega
            have hc := hWF.counter
            have hcnt3 := hsc3.2.2.2.2.2.2.2.2.1
            omega
        -- apply the induction hypothesis at s3
        have hih := ih s3 j hWF3 (by rw [hsc3.2.1]; exact hbi)
          (by rw [hstart3]; exact hjl) (by omega)
          (by
            intro idx h1 h2
            rw [hstart3] at h1
            rw [hash_threshold_congr ht s s3 hsc3.2.2.2.2.2.1, hcell3 idx,
              if_neg (by omega : ¬ idx = j)]
            exact hvet idx h1 h2)
        obtain ⟨ihWF, ihmd, ihoff, ihthr, ihgap, ihbs, ihN, ihms, ihmx, ihmo, ihmt, ihtl,
          ihscan, ihcontent, ihby, ihevid⟩ := hih
        have h5 : (getMD s3 bi).gap = (getMD s bi).gap + 1 := by
          rw [hmd3 bi, if_pos rfl]
        refine ⟨ihWF, ?_, ?_, ?_, ?_, ihbs.trans hsc3.1, ihN.trans hsc3.2.1,
          ihms.trans hsc3.2.2.1, ihmx.trans hsc3.2.2.2.1, ihmo.trans hsc3.2.2.2.2.1,
          ihmt.trans hsc3.2.2.2.2.2.1, ihtl.trans hsc3.2.2.2.2.2.2.1, ?_, ?_, ?_, ?_⟩
        · intro m hm
          exact (ihmd m hm).trans (by rw [hmd3 m, if_neg hm])
        · exact ihoff.trans (by rw [hmd3 bi, if_pos rfl])
        · exact ihthr.trans (by rw [hmd3 bi, if_pos rfl])
        · omega
        · intro idx h1 h2
          have := ihscan idx (by rw [hstart3]; exact h1) h2
          rw [hash_threshold_congr ht s s3 hsc3.2.2.2.2.2.1] at this
          exact this
        · intro idx h1 h2
          obtain ⟨idx0, hi0a, hi0b, hi0c⟩ := ihcontent idx (by rw [hstart3]; exact h1) h2
          rw [hstart3] at hi0a
          by_cases hx : idx0 = j
          · refine ⟨block_end s bi - 1, by omega, by omega, ?_⟩
            rw [hi0c, hcell3 idx0, if_pos hx]
          · refine ⟨idx0, hi0a, by omega, ?_⟩
            rw [hi0c, hcell3 idx0, if_neg hx]
        · intro k hk
          have hkj := hk j (Nat.le_refl j) hj
          have hby3 : byFind s3.backyard k = byFind s.backyard k := by
            rw [show s3.backyard = s1.backyard from hsc3.2.2.2.2.2.2.2.2.2]
            exact byFind_insert_other s (cell s j).1 (cell s j).2 k hkj
          refine (ihby k ?_).trans hby3
          intro idx h1 h2
          rw [hcell3 idx]
          by_cases hx : idx = j
          · rw [if_pos hx]
            exact hk (block_end s bi - 1) (by omega) (by omega)
          · rw [if_neg hx]
            exact hk idx h1 (by omega)
        · intro _
          omega
      · rw [if_neg hcond] at hunf
        rw [hunf]
        have hih := ih s (j + 1) hWF hbi (by omega) (by omega)
          (by
            intro idx h1 h2
            rcases (by omega : idx < j ∨ idx = j) with h | h
            · exact hvet idx h1 h
            · rw [h]
              exact Nat.not_lt.1 hcond)
        obtain ⟨ihWF, ihmd, ihoff, ihthr, ihgap, ihbs, ihN, ihms, ihmx, ihmo, ihmt, ihtl,
          ihscan, ihcontent, ihby, ihevid⟩ := hih
        refine ⟨ihWF, ihmd, ihoff, ihthr, ihgap, ihbs, ihN, ihms, ihmx, ihmo, ihmt, ihtl,
          ihscan, ihcontent, ?_, ?_⟩
        · intro k hk
          exact ihby k (fun idx h1 h2 => hk idx (by omega) h2)
        · intro hex
          obtain ⟨idx, h1, h2, h3⟩ := hex
          refine ihevid ⟨idx, ?_, h2, h3⟩
          rcases Nat.eq_or_lt_of_le h1 with heq | hlt
          · exfalso
            rw [heq] at hcond
            exact hcond h3
          · omega
    · rw [if_neg hj] at hunf
      rw [hunf]
      refine ⟨hWF, fun m _ => rfl, rfl, rfl, Nat.le_refl _, rfl, rfl, rfl, rfl, rfl, rfl,
        rfl, ?_, ?_, fun k _ => rfl, ?_⟩
      · intro idx h1 h2
        exact hvet idx h1 (by omega)
      · intro idx h1 h2
        exact ⟨idx, h1, h2, rfl⟩
      · intro hex
        obtain ⟨idx, h1, h2, _⟩ := hex
        omega

end SlickHash
namespace SlickHash

/-- Updating only the threshold of a meta-data record keeps the offset. -/
theorem md_setThreshold_offset (md : SlickHashMetaData) (t : Nat) :
    ({ md with threshold := t } : SlickHashMetaData).offset = md.offset := rfl

/-- Updating only the threshold of a meta-data record keeps the gap. -/
theorem md_setThreshold_gap (md : SlickHashMetaData) (t : Nat) :
    ({ md with threshold := t } : SlickHashMetaData).gap = md.gap := rfl

/-- Updating only the threshold of a meta-data record sets the threshold. -/
theorem md_setThreshold_threshold (md : SlickHashMetaData) (t : Nat) :
    ({ md with threshold := t } : SlickHashMetaData).threshold = t := rfl

/-- The running minimum of the `t_prime` fold never drops below a bound
respected by the seed and by every listed entry. -/
theorem foldl_min_ge (g : Nat × Nat → Nat) (c : Nat) :
    ∀ (l : List (Nat × Nat)) (init : Nat), c ≤ init → (∀ p ∈ l, c ≤ g p) →
      c ≤ l.foldl (fun m p => if g p < m then g p else m) init := by
  intro l
  induction l with
  | nil => intro init h _; exact h
  | cons a t ih =>
    intro init hinit hall
    rw [List.foldl_cons]
    refine ih _ ?_ (fun p hp => hall p (List.mem_cons_of_mem a hp))
    by_cases hlt : g a < init
    · rw [if_pos hlt]
      exact hall a (List.mem_cons_self a t)
    · rw [if_neg hlt]
      exact hinit

/-- The minimum threshold hash computed by the Bumper is at least any bound
under the seed `max_threshold + 1` and under every entry of the block. -/
theorem minThresholdHash_ge (ht : Nat → Nat) (s : SlickHash) (i c : Nat)
    (hinit : c ≤ s.max_threshold + 1)
    (hall : ∀ p ∈ blockSlice s i, c ≤ hash_threshold ht s p.1) :
    c ≤ minThresholdHash ht s i :=
  foldl_min_ge (fun p => hash_threshold ht s p.1) c (blockSlice s i)
    (s.max_threshold + 1) hinit hall

/-- The Bumper (`bump`, the no-space path of `try_insert`) strictly raises
block `bi`'s threshold, and afterwards every entry remaining in the block's
range has threshold hash at least the new threshold.  The hypotheses are the
routing fact (`H_t(k)` at least the old threshold) and the reachable-state
invariants that the old threshold is within `max_threshold` and that every
stored entry of the block has threshold hash at least the old threshold. -/
theorem c5helper_bump_raises (ht : Nat → Nat) (s : SlickHash) (bi k v : Nat)
    (hWF : WF s) (hbi : bi < s.number_of_blocks)
    (hthr : (getMD s bi).threshold ≤ s.max_threshold)
    (hk : (getMD s bi).threshold ≤ hash_threshold ht s k)
    (hslice : ∀ p ∈ blockSlice s bi,
      (getMD s bi).threshold ≤ hash_threshold ht s p.1) :
    (getMD s bi).threshold <
      (getMD (bump ht s bi (block_start s bi) k v).2 bi).threshold ∧
    (∀ idx, block_start (bump ht s bi (block_start s bi) k v).2 bi ≤ idx →
      idx < block_end (bump ht s bi (block_start s bi) k v).2 bi →
      (getMD (bump ht s bi (block_start s bi) k v).2 bi).threshold ≤
        hash_threshold ht (bump ht s bi (block_start s bi) k v).2
          (cell (bump ht s bi (block_start s bi) k v).2 idx).1) := by
  obtain ⟨hbs, hms, hmo, hmt, hpos, hsz, htlen, hmdlen⟩ := hWF.fields
  have hbilen : bi < s.meta_data.length := by omega
  set m0 := minThresholdHash ht s bi with hm0def
  set mth := (if hash_threshold ht s k < m0 then hash_threshold ht s k else m0)
    with hmthdef
  set t' := mth + 1 with htpdef
  set s1 := updMD s bi (fun md => { md with threshold := t' }) with hs1def
  set s2 := bumpLoop ht (block_end s1 bi - block_start s bi) s1 bi
    (block_start s bi) t' with hs2def
  -- lower bound on the new threshold
  have hm0ge : (getMD s bi).threshold ≤ m0 :=
    minThresholdHash_ge ht s bi _ (by omega) hslice
  have hmthge : (getMD s bi).threshold ≤ mth := by
    rw [hmthdef]
    by_cases h : hash_threshold ht s k < m0
    · rw [if_pos h]
      exact hk
    · rw [if_neg h]
      exact hm0ge
  have htgt : (getMD s bi).threshold < t' := by omega
  -- the state after the threshold write
  have hsc1 := updMD_scalars s bi (fun md => { md with threshold := t' })
  rw [← hs1def] at hsc1
  have hmd1 : ∀ m, getMD s1 m =
      if m = bi then { getMD s bi with threshold := t' } else getMD s m := by
    intro m
    rw [hs1def, getMD_updMD]
    by_cases hm : m = bi
    · rw [if_pos ⟨hm, hbilen⟩, if_pos hm]
    · rw [if_neg (fun hc => hm hc.1), if_neg hm]
  have hoff1 : ∀ m, (getMD s1 m).offset = (getMD s m).offset := by
    intro m
    rw [hmd1 m]
    by_cases hm : m = bi
    · rw [if_pos hm, md_setThreshold_offset, hm]
    · rw [if_neg hm]
  have hgap1 : ∀ m, (getMD s1 m).gap = (getMD s m).gap := by
    intro m
    rw [hmd1 m]
    by_cases hm : m = bi
    · rw [if_pos hm, md_setThreshold_gap, hm]
    · rw [if_neg hm]
  have hthr1 : (getMD s1 bi).threshold = t' := by
    rw [hmd1 bi, if_pos rfl, md_setThreshold_threshold]
  have hstart1 : ∀ m, block_start s1 m = block_start s m := by
    intro m
    rw [block_start, block_start, hsc1.1, hoff1 m]
  have hend1 : ∀ m, block_end s1 m = block_end s m := by
    intro m
    rw [block_end, block_end, hsc1.2.1, hsc1.2.2.1, hsc1.1, hoff1 (m + 1), hgap1 m]
  have hWF1 : WF s1 := by
    refine ⟨hsc1.1.trans hbs, hsc1.2.2.2.1.trans hms, hsc1.2.2.2.2.1.trans hmo,
      hsc1.2.2.2.2.2.1.trans hmt, ?_, ?_, ?_, ?_, ?_, ?_, ?_, ?_⟩
    · rw [hsc1.2.1]
      exact hpos
    · rw [hsc1.2.2.1, hsc1.1, hsc1.2.1]
      exact hsz
    · rw [hsc1.2.2.2.2.2.2.1, hsc1.2.2.1]
      exact htlen
    · rw [hsc1.2.2.2.2.2.2.2.2.2, hsc1.2.1]
      exact hmdlen
    · intro m hm
      rw [List.mem_range, hsc1.2.1] at hm
      rw [hsc1.2.2.2.2.1, hmd1 m]
      by_cases hmbi : m = bi
      · rw [if_pos hmbi, md_setThreshold_offset]
        exact hWF.offCap hbi
      · rw [if_neg hmbi]
        exact hWF.offCap hm
    · intro m hm
      rw [List.mem_range, hsc1.2.1] at hm
      have hg := hWF.geom hm
      by_cases hmN : m + 1 = s.number_of_blocks
      · rw [hsc1.2.1, if_pos hmN, hsc1.1, hoff1 m, hgap1 m]
        rw [if_pos hmN] at hg
        exact hg
      · rw [hsc1.2.1, if_neg hmN, hsc1.1, hoff1 m, hgap1 m, hoff1 (m + 1)]
        rw [if_neg hmN] at hg
        exact hg
    · intro m hm hempty
      rw [List.mem_range, hsc1.2.1] at hm
      rw [hstart1 m, hend1 m] at hempty
      rw [hgap1 m]
      exact hWF.emptyGap hm hempty
    · rw [hsc1.2.2.2.2.2.2.2.2.1]
      have : sumLens s1 = sumLens s :=
        sumLens_congr s s1 hsc1.2.1
          (fun m _ => by rw [blockLen, blockLen, hstart1 m, hend1 m])
      rw [this]
      exact hWF.counter
  -- the bumping scan
  have hspec := bumpLoop_spec ht bi t' (block_end s1 bi - block_start s bi) s1
    (block_start s bi) hWF1 (by rw [hsc1.2.1]; exact hbi)
    (Nat.le_of_eq (hstart1 bi)) rfl
    (by
      intro idx h1 h2
      rw [hstart1 bi] at h1
      omega)
  rw [← hs2def] at hspec
  obtain ⟨hWF2, hmd2, hoff2, hthr2, hgap2, hbs2, hN2, hms2, hmx2, hmo2, hmt2, htl2,
    hscan2, hcontent2, hby2, hevid2⟩ := hspec
  have hthr2t : (getMD s2 bi).threshold = t' := hthr2.trans hthr1
  have hbsC : s2.block_size = s.block_size := hbs2.trans hsc1.1
  have hmtC : s2.max_threshold = s.max_threshold := hmt2.trans hsc1.2.2.2.2.2.1
  have hstart2 : block_start s2 bi = block_start s bi := by
    rw [block_start, block_start, hbsC, hoff2, hoff1 bi]
  have hht2 : ∀ x, hash_threshold ht s2 x = hash_threshold ht s x :=
    hash_threshold_congr ht s s2 hmtC
  have hscan2' : ∀ idx, block_start s bi ≤ idx → idx < block_end s2 bi →
      t' ≤ hash_threshold ht s (cell s2 idx).1 := by
    intro idx h1 h2
    have h := hscan2 idx (by rw [hstart1 bi]; exact h1) h2
    rwa [hash_threshold_congr ht s s1 hsc1.2.2.2.2.2.1] at h
  -- the final branch of `bump`
  have hbump : (bump ht s bi (block_start s bi) k v).2 =
      if hash_threshold ht s2 k < t' then (insert_into_backyard s2 k v).2 else s2 := by
    show (if hash_threshold ht s2 k < t' then
        (some (insert_into_backyard s2 k v).1, (insert_into_backyard s2 k v).2)
      else ((none : Option Insertion), s2)).2 = _
    by_cases hc : hash_threshold ht s2 k < t'
    · rw [if_pos hc, if_pos hc]
    · rw [if_neg hc, if_neg hc]
  rw [hbump]
  by_cases hc : hash_threshold ht s2 k < t'
  · rw [if_pos hc]
    have hfrB := insert_into_backyard_frame s2 k v
    have hmdB : ∀ m, getMD (insert_into_backyard s2 k v).2 m = getMD s2 m := by
      intro m
      show ((insert_into_backyard s2 k v).2).meta_data.getD m ⟨0, 0, 0⟩ =
        s2.meta_data.getD m ⟨0, 0, 0⟩
      rw [hfrB.2.1]
    have hcellB : ∀ x, cell (insert_into_backyard s2 k v).2 x = cell s2 x := by
      intro x
      show ((insert_into_backyard s2 k v).2).main_table.getD x (0, 0) =
        s2.main_table.getD x (0, 0)
      rw [hfrB.1]
    have hstartB : block_start (insert_into_backyard s2 k v).2 bi =
        block_start s2 bi := by
      rw [block_start, block_start, hfrB.2.2.2.1, hmdB bi]
    have hendB : block_end (insert_into_backyard s2 k v).2 bi = block_end s2 bi := by
      rw [block_end, block_end, hfrB.2.2.2.2.1, hfrB.2.2.2.2.2.1, hfrB.2.2.2.1,
        hmdB bi, hmdB (bi + 1)]
    have hhtB : ∀ x, hash_threshold ht (insert_into_backyard s2 k v).2 x =
        hash_threshold ht s2 x :=
      hash_threshold_congr ht s2 _ hfrB.2.2.2.2.2.2.2.2
    constructor
    · rw [hmdB bi, hthr2t]
      exact htgt
    · intro idx h1 h2
      rw [hstartB, hstart2] at h1
      rw [hendB] at h2
      rw [hmdB bi, hthr2t, hhtB, hcellB idx, hht2]
      exact hscan2' idx h1 h2
  · rw [if_neg hc]
    constructor
    · rw [hthr2t]
      exact htgt
    · intro idx h1 h2
      rw [hstart2] at h1
      rw [hthr2t, hht2]
      exact hscan2' idx h1 h2

end SlickHash
namespace SlickHash

/-- A failed leftward slide leaves the table untouched. -/
theorem slide_left_false_state (s : SlickHash) (i : Nat) (s' : SlickHash)
    (h : slide_gap_from_left s i = (false, s')) : s' = s := by
  rw [slide_gap_from_left] at h
  cases hD : findDonorLeft s i with
  | none =>
    rw [hD] at h
    dsimp only at h
    exact (congrArg Prod.snd h).symm
  | some j =>
    rw [hD] at h
    dsimp only at h
    by_cases hc : (getMD s j).gap = 1 ∧ block_start s j = block_end s j
    · rw [if_pos hc] at h
      exact (congrArg Prod.snd h).symm
    · rw [if_neg hc] at h
      exact Bool.noConfusion (congrArg Prod.fst h)

/-- A failed rightward slide leaves the table untouched. -/
theorem slide_right_false_state (s : SlickHash) (i : Nat) (s' : SlickHash)
    (h : slide_gap_from_right s i = (false, s')) : s' = s := by
  rw [slide_gap_from_right] at h
  by_cases h1 : i = s.number_of_blocks - 1
  · rw [if_pos h1] at h
    exact (congrArg Prod.snd h).symm
  · rw [if_neg h1] at h
    cases hD : findDonorRight s s.number_of_blocks (i + 1) with
    | none =>
      rw [hD] at h
      dsimp only at h
      exact (congrArg Prod.snd h).symm
    | some j =>
      rw [hD] at h
      dsimp only at h
      by_cases h2 : (getMD s j).offset = s.max_offset
      · rw [if_pos h2] at h
        exact (congrArg Prod.snd h).symm
      · rw [if_neg h2] at h
        by_cases h3 : (getMD s j).gap = 1 ∧ block_start s j = block_end s j
        · rw [if_pos h3] at h
          exact (congrArg Prod.snd h).symm
        · rw [if_neg h3] at h
          exact Bool.noConfusion (congrArg Prod.fst h)

/-- When `there_is_no_space` answers `true`, the state it hands back is the
one it received: the no-change paths are the immediate over-`max_slick_size`
answer and the two failed slides. -/
theorem there_is_no_space_true_id (s : SlickHash) (len i : Nat) (s' : SlickHash)
    (h : there_is_no_space s len i = (true, s')) : s' = s := by
  rw [there_is_no_space] at h
  by_cases h1 : s.max_slick_size ≤ len
  · rw [if_pos h1] at h
    exact (congrArg Prod.snd h).symm
  · rw [if_neg h1] at h
    by_cases h2 : 0 < (getMD s i).gap
    · rw [if_pos h2] at h
      exact Bool.noConfusion (congrArg Prod.fst h)
    · rw [if_neg h2] at h
      rcases hL : slide_gap_from_left s i with ⟨bL, sL⟩
      rw [hL] at h
      cases bL
      · dsimp only at h
        rcases hR : slide_gap_from_right sL i with ⟨bR, sR⟩
        rw [hR] at h
        cases bR
        · dsimp only at h
          have hsL : sL = s := slide_left_false_state s i sL hL
          have hsR : sR = sL := slide_right_false_state sL i sR hR
          have hs' : sR = s' := congrArg Prod.snd h
          rw [← hs', hsR, hsL]
        · dsimp only at h
          exact Bool.noConfusion (congrArg Prod.fst h)
      · dsimp only at h
        exact Bool.noConfusion (congrArg Prod.fst h)

end SlickHash

namespace SlickHash

/-- **C5.**  Whenever the Bumper runs on block `H_b(k)` during `try_insert`
(the key is routed to the main table and `there_is_no_space` answered
`true`), upon its completion the block's threshold is strictly greater than
it was before the bump, and every entry remaining in the block's range has
threshold hash at least that new threshold.  The remaining hypotheses are
the reachable-state invariants: the block's threshold is within
`max_threshold` and every stored entry of the block clears it. -/
theorem c5_bumper_postcondition (hb ht : Nat → Nat) (s s1 : SlickHash)
    (k v bi : Nat) (hWF : WF s) (hbidef : bi = hash_block_index hb s k)
    (hbi : bi < s.number_of_blocks)
    (hroute : (getMD s bi).threshold ≤ hash_threshold ht s k)
    (hthr : (getMD s bi).threshold ≤ s.max_threshold)
    (hslice : ∀ p ∈ blockSlice s bi,
      (getMD s bi).threshold ≤ hash_threshold ht s p.1)
    (hnospace : there_is_no_space s (blockLen s bi) bi = (true, s1)) :
    (getMD s bi).threshold <
      (getMD (bump ht s1 bi (block_start s bi) k v).2 bi).threshold ∧
    (∀ idx, block_start (bump ht s1 bi (block_start s bi) k v).2 bi ≤ idx →
      idx < block_end (bump ht s1 bi (block_start s bi) k v).2 bi →
      (getMD (bump ht s1 bi (block_start s bi) k v).2 bi).threshold ≤
        hash_threshold ht (bump ht s1 bi (block_start s bi) k v).2
          (cell (bump ht s1 bi (block_start s bi) k v).2 idx).1) := by
  have hs1 : s1 = s := there_is_no_space_true_id s (blockLen s bi) bi s1 hnospace
  subst hs1
  exact c5helper_bump_raises ht s1 bi k v hWF hbi hthr hroute hslice

/-- Witness for C5 at the concrete over-full table: hash functions constant
0, key 5 and value 7 routed to block 0 of 20 entries. -/
theorem c5_witness :
    (getMD exampleBumpTable 0).threshold <
      (getMD (bump hashZero exampleBumpTable 0
        (block_start exampleBumpTable 0) 5 7).2 0).threshold ∧
    (∀ idx, block_start (bump hashZero exampleBumpTable 0
        (block_start exampleBumpTable 0) 5 7).2 0 ≤ idx →
      idx < block_end (bump hashZero exampleBumpTable 0
        (block_start exampleBumpTable 0) 5 7).2 0 →
      (getMD (bump hashZero exampleBumpTable 0
        (block_start exampleBumpTable 0) 5 7).2 0).threshold ≤
        hash_threshold hashZero (bump hashZero exampleBumpTable 0
          (block_start exampleBumpTable 0) 5 7).2
          (cell (bump hashZero exampleBumpTable 0
            (block_start exampleBumpTable 0) 5 7).2 idx).1) :=
  c5_bumper_postcondition hashZero hashZero exampleBumpTable exampleBumpTable 5 7 0
    (by decide) (by decide) (by decide) (by decide) (by decide) (by decide)
    (by decide)

end SlickHash
namespace SlickHash

/-- `getD` on a replicated list yields the replicated element. -/
theorem getD_replicate {α : Type} (a d : α) :
    ∀ (n m : Nat), m < n → (List.replicate n a).getD m d = a := by
  intro n
  induction n with
  | zero => intro m hm; omega
  | succ n ih =>
    intro m hm
    cases m with
    | zero => rfl
    | succ m' =>
      show (List.replicate n a).getD m' d = a
      exact ih m' (by omega)

/-- Well-formedness transports along equality of all observable components:
any state agreeing with a well-formed one on the main table, the meta-data,
the counter and the scalar hyperparameters is well-formed. -/
theorem WF_frame (s s' : SlickHash) (hWF : WF s)
    (h1 : s'.main_table = s.main_table) (h2 : s'.meta_data = s.meta_data)
    (h3 : s'.no_elements_in_main_table = s.no_elements_in_main_table)
    (h4 : s'.block_size = s.block_size)
    (h5 : s'.number_of_blocks = s.number_of_blocks)
    (h6 : s'.main_table_size = s.main_table_size)
    (h7 : s'.max_slick_size = s.max_slick_size)
    (h8 : s'.max_offset = s.max_offset)
    (h9 : s'.max_threshold = s.max_threshold) : WF s' := by
  have hmd : ∀ m, getMD s' m = getMD s m := by
    intro m
    show s'.meta_data.getD m ⟨0, 0, 0⟩ = s.meta_data.getD m ⟨0, 0, 0⟩
    rw [h2]
  have hst : ∀ m, block_start s' m = block_start s m := by
    intro m
    rw [block_start, block_start, h4, hmd m]
  have hen : ∀ m, block_end s' m = block_end s m := by
    intro m
    rw [block_end, block_end, h4, h5, h6, hmd m, hmd (m + 1)]
  obtain ⟨hbs, hms, hmo, hmt, hpos, hsz, htlen, hmdlen⟩ := hWF.fields
  refine ⟨h4.trans hbs, h7.trans hms, h8.trans hmo, h9.trans hmt,
    ?_, ?_, ?_, ?_, ?_, ?_, ?_, ?_⟩
  · rw [h5]
    exact hpos
  · rw [h6, h4, h5]
    exact hsz
  · rw [congrArg List.length h1, h6]
    exact htlen
  · rw [congrArg List.length h2, h5]
    exact hmdlen
  · intro m hm
    rw [List.mem_range, h5] at hm
    rw [hmd m, h8]
    exact hWF.offCap hm
  · intro m hm
    rw [List.mem_range, h5] at hm
    have hg := hWF.geom hm
    by_cases hmN : m + 1 = s.number_of_blocks
    · rw [h5, if_pos hmN, hmd m, h4]
      rw [if_pos hmN] at hg
      exact hg
    · rw [h5, if_neg hmN, hmd m, hmd (m + 1), h4]
      rw [if_neg hmN] at hg
      exact hg
  · intro m hm hempty
    rw [List.mem_range, h5] at hm
    rw [hst m, hen m] at hempty
    rw [hmd m]
    exact hWF.emptyGap hm hempty
  · rw [h3, sumLens_congr s s' h5
      (fun m _ => by rw [blockLen, blockLen, hst m, hen m])]
    exact hWF.counter

/-- Routing a pair to the backyard preserves well-formedness: the main
region and all scalars are untouched. -/
theorem iib_WF (s : SlickHash) (k v : Nat) (hWF : WF s) :
    WF (insert_into_backyard s k v).2 := by
  have hfr := insert_into_backyard_frame s k v
  exact WF_frame s _ hWF hfr.1 hfr.2.1 hfr.2.2.1 hfr.2.2.2.1 hfr.2.2.2.2.1
    hfr.2.2.2.2.2.1 hfr.2.2.2.2.2.2.1 hfr.2.2.2.2.2.2.2.1 hfr.2.2.2.2.2.2.2.2

/-- Construction at a positive multiple of the block size yields a
well-formed table. -/
theorem new_WF (c : Nat) (s : SlickHash) (hpos : 0 < c)
    (hnew : new c = some s) : WF s := by
  rw [new] at hnew
  by_cases hc : c % 10 = 0
  · rw [if_pos hc] at hnew
    cases hnew
    have hN : 0 < c / 10 := Nat.div_pos (by omega) (by omega)
    have hmd : ∀ m, m < c / 10 →
        (List.replicate (c / 10) (⟨0, 10, 0⟩ : SlickHashMetaData)).getD m ⟨0, 0, 0⟩ =
          ⟨0, 10, 0⟩ :=
      fun m hm => getD_replicate _ _ _ m hm
    refine ⟨rfl, rfl, rfl, rfl, hN, by show c = 10 * (c / 10); omega,
      ?_, ?_, ?_, ?_, ?_, ?_⟩
    · show (List.replicate c ((0 : Nat), (0 : Nat))).length = c
      rw [List.length_replicate]
    · show (List.replicate (c / 10) (⟨0, 10, 0⟩ : SlickHashMetaData)).length = c / 10
      rw [List.length_replicate]
    · intro m hm
      rw [List.mem_range] at hm
      have hm' : m < c / 10 := hm
      show ((List.replicate (c / 10) (⟨0, 10, 0⟩ : SlickHashMetaData)).getD m
        ⟨0, 0, 0⟩).offset ≤ 10
      rw [hmd m hm']
      decide
    · intro m hm
      rw [List.mem_range] at hm
      have hm' : m < c / 10 := hm
      by_cases hmN : m + 1 = c / 10
      · rw [if_pos hmN]
        show ((List.replicate (c / 10) (⟨0, 10, 0⟩ : SlickHashMetaData)).getD m
            ⟨0, 0, 0⟩).offset +
          ((List.replicate (c / 10) (⟨0, 10, 0⟩ : SlickHashMetaData)).getD m
            ⟨0, 0, 0⟩).gap ≤ 10
        rw [hmd m hm']
        decide
      · rw [if_neg hmN]
        show 10 * m +
            ((List.replicate (c / 10) (⟨0, 10, 0⟩ : SlickHashMetaData)).getD m
              ⟨0, 0, 0⟩).offset +
            ((List.replicate (c / 10) (⟨0, 10, 0⟩ : SlickHashMetaData)).getD m
              ⟨0, 0, 0⟩).gap ≤
          10 * (m + 1) +
            ((List.replicate (c / 10) (⟨0, 10, 0⟩ : SlickHashMetaData)).getD (m + 1)
              ⟨0, 0, 0⟩).offset
        rw [hmd m hm', hmd (m + 1) (by omega)]
        show 10 * m + 0 + 10 ≤ 10 * (m + 1) + 0
        omega
    · intro m hm hempty
      rw [List.mem_range] at hm
      have hm' : m < c / 10 := hm
      show 1 ≤ ((List.replicate (c / 10) (⟨0, 10, 0⟩ : SlickHashMetaData)).getD m
        ⟨0, 0, 0⟩).gap
      rw [hmd m hm']
      decide
    · show 0 = sumLens _
      rw [sumLens]
      refine (Finset.sum_eq_zero ?_).symm
      intro m hm
      rw [Finset.mem_range] at hm
      have hm' : m < c / 10 := hm
      rw [block_end, block_start]
      by_cases hmN : m = c / 10 - 1
      · rw [if_pos hmN]
        show c - ((List.replicate (c / 10) (⟨0, 10, 0⟩ : SlickHashMetaData)).getD m
            ⟨0, 0, 0⟩).gap -
          (10 * m + ((List.replicate (c / 10) (⟨0, 10, 0⟩ : SlickHashMetaData)).getD m
            ⟨0, 0, 0⟩).offset) = 0
        rw [hmd m hm']
        show c - 10 - (10 * m + 0) = 0
        omega
      · rw [if_neg hmN]
        show 10 * m + 10 +
            ((List.replicate (c / 10) (⟨0, 10, 0⟩ : SlickHashMetaData)).getD (m + 1)
              ⟨0, 0, 0⟩).offset -
            ((List.replicate (c / 10) (⟨0, 10, 0⟩ : SlickHashMetaData)).getD m
              ⟨0, 0, 0⟩).gap -
          (10 * m + ((List.replicate (c / 10) (⟨0, 10, 0⟩ : SlickHashMetaData)).getD m
            ⟨0, 0, 0⟩).offset) = 0
        rw [hmd m hm', hmd (m + 1) (by omega)]
        show 10 * m + 10 + 0 - 10 - (10 * m + 0) = 0
        omega
  · rw [if_neg hc] at hnew
    cases hnew

/-- The running minimum of the `t_prime` fold never exceeds its seed. -/
theorem foldl_min_le_init (g : Nat × Nat → Nat) :
    ∀ (l : List (Nat × Nat)) (init : Nat),
      l.foldl (fun m p => if g p < m then g p else m) init ≤ init := by
  intro l
  induction l with
  | nil => intro init; exact Nat.le_refl _
  | cons a t ih =>
    intro init
    rw [List.foldl_cons]
    refine Nat.le_trans (ih _) ?_
    by_cases h : g a < init
    · rw [if_pos h]
      omega
    · rw [if_neg h]

/-- The running minimum of the `t_prime` fold never exceeds any listed
entry's value. -/
theorem foldl_min_le_elem (g : Nat × Nat → Nat) :
    ∀ (l : List (Nat × Nat)) (init : Nat) (p : Nat × Nat), p ∈ l →
      l.foldl (fun m p => if g p < m then g p else m) init ≤ g p := by
  intro l
  induction l with
  | nil => intro init p hp; exact absurd hp (List.not_mem_nil p)
  | cons a t ih =>
    intro init p hp
    rw [List.foldl_cons]
    rcases List.mem_cons.1 hp with h | h
    · subst h
      refine Nat.le_trans (foldl_min_le_init g t _) ?_
      by_cases hlt : g p < init
      · rw [if_pos hlt]
      · rw [if_neg hlt]
        omega
    · exact ih _ p h

/-- The running minimum of the `t_prime` fold is either its seed or the
value of a listed entry. -/
theorem foldl_min_achieved (g : Nat × Nat → Nat) :
    ∀ (l : List (Nat × Nat)) (init : Nat),
      l.foldl (fun m p => if g p < m then g p else m) init = init ∨
      ∃ p ∈ l, l.foldl (fun m p => if g p < m then g p else m) init = g p := by
  intro l
  induction l with
  | nil => intro init; exact Or.inl rfl
  | cons a t ih =>
    intro init
    rw [List.foldl_cons]
    by_cases h : g a < init
    · rw [if_pos h]
      rcases ih (g a) with h1 | ⟨p, hp, h1⟩
      · exact Or.inr ⟨a, List.mem_cons_self a t, h1⟩
      · exact Or.inr ⟨p, List.mem_cons_of_mem a hp, h1⟩
    · rw [if_neg h]
      rcases ih init with h1 | ⟨p, hp, h1⟩
      · exact Or.inl h1
      · exact Or.inr ⟨p, List.mem_cons_of_mem a hp, h1⟩

/-- A `true` answer of `there_is_no_space` means the block was over the
slick-size cap, or it was gapless (and both slides then failed). -/
theorem there_is_no_space_true_cases (s : SlickHash) (len i : Nat)
    (s1 : SlickHash) (h : there_is_no_space s len i = (true, s1)) :
    s.max_slick_size ≤ len ∨ (getMD s i).gap = 0 := by
  rw [there_is_no_space] at h
  by_cases h1 : s.max_slick_size ≤ len
  · exact Or.inl h1
  · rw [if_neg h1] at h
    by_cases h2 : 0 < (getMD s i).gap
    · rw [if_pos h2] at h
      exact Bool.noConfusion (congrArg Prod.fst h)
    · exact Or.inr (by omega)

/-- A `false` answer of `there_is_no_space` hands back a well-formed state
whose block `i` has a gap cell, with the block structure (count of blocks
and every block's length) unchanged. -/
theorem there_is_no_space_false_spec (s : SlickHash) (len i : Nat)
    (s1 : SlickHash) (hWF : WF s) (hi : i < s.number_of_blocks)
    (h : there_is_no_space s len i = (false, s1)) :
    WF s1 ∧ 1 ≤ (getMD s1 i).gap ∧
    s1.number_of_blocks = s.number_of_blocks := by
  rw [there_is_no_space] at h
  by_cases h1 : s.max_slick_size ≤ len
  · rw [if_pos h1] at h
    exact Bool.noConfusion (congrArg Prod.fst h)
  · rw [if_neg h1] at h
    by_cases h2 : 0 < (getMD s i).gap
    · rw [if_pos h2] at h
      have hs1 : s = s1 := congrArg Prod.snd h
      subst hs1
      exact ⟨hWF, by omega, rfl⟩
    · rw [if_neg h2] at h
      rcases hL : slide_gap_from_left s i with ⟨bL, sL⟩
      rw [hL] at h
      cases bL
      · dsimp only at h
        rcases hR : slide_gap_from_right sL i with ⟨bR, sR⟩
        rw [hR] at h
        cases bR
        · dsimp only at h
          exact Bool.noConfusion (congrArg Prod.fst h)
        · dsimp only at h
          have hsL : sL = s := slide_left_false_state s i sL hL
          have hs1 : sR = s1 := congrArg Prod.snd h
          subst hs1
          subst hsL
          have hw := slide_right_wf sL i sR hWF hi hR
          obtain ⟨_, _, _, _, _, _, _, _, _, _, _, _, hsc⟩ :=
            slide_right_true_spec sL i sR hWF.fields.2.2.2.2.2.2.2 hi hR
          exact ⟨hw.1, hw.2.2, hsc.2.1⟩
      · dsimp only at h
        have hs1 : sL = s1 := congrArg Prod.snd h
        subst hs1
        have hw := slide_left_wf s i sL hWF hi hL
        obtain ⟨j, _, _, _, _, _, _, _, _, hsc⟩ :=
          slide_left_true_spec s i sL hWF.fields.2.2.2.2.2.2.2 hi hL
        exact ⟨hw.1, hw.2.2, hsc.2.1⟩

end SlickHash
namespace SlickHash

/-- Writing a block's threshold preserves well-formedness: the geometry only
reads offsets and gaps. -/
theorem WF_updThr (s : SlickHash) (bi tp : Nat) (hWF : WF s) :
    WF (updMD s bi (fun md => { md with threshold := tp })) := by
  have hsc := updMD_scalars s bi (fun md => { md with threshold := tp })
  have hoff1 : ∀ m,
      (getMD (updMD s bi (fun md => { md with threshold := tp })) m).offset =
        (getMD s m).offset := by
    intro m
    rw [getMD_updMD]
    by_cases h : m = bi ∧ bi < s.meta_data.length
    · rw [if_pos h, md_setThreshold_offset, h.1]
    · rw [if_neg h]
  have hgap1 : ∀ m,
      (getMD (updMD s bi (fun md => { md with threshold := tp })) m).gap =
        (getMD s m).gap := by
    intro m
    rw [getMD_updMD]
    by_cases h : m = bi ∧ bi < s.meta_data.length
    · rw [if_pos h, md_setThreshold_gap, h.1]
    · rw [if_neg h]
  have hstart1 : ∀ m,
      block_start (updMD s bi (fun md => { md with threshold := tp })) m =
        block_start s m := by
    intro m
    rw [block_start, block_start, hsc.1, hoff1 m]
  have hend1 : ∀ m,
      block_end (updMD s bi (fun md => { md with threshold := tp })) m =
        block_end s m := by
    intro m
    rw [block_end, block_end, hsc.2.1, hsc.2.2.1, hsc.1, hoff1 (m + 1), hgap1 m]
  obtain ⟨hbs, hms, hmo, hmt, hpos, hsz, htlen, hmdlen⟩ := hWF.fields
  refine ⟨hsc.1.trans hbs, hsc.2.2.2.1.trans hms, hsc.2.2.2.2.1.trans hmo,
    hsc.2.2.2.2.2.1.trans hmt, ?_, ?_, ?_, ?_, ?_, ?_, ?_, ?_⟩
  · rw [hsc.2.1]
    exact hpos
  · rw [hsc.2.2.1, hsc.1, hsc.2.1]
    exact hsz
  · rw [congrArg List.length hsc.2.2.2.2.2.2.1, hsc.2.2.1]
    exact htlen
  · rw [hsc.2.2.2.2.2.2.2.2.2, hsc.2.1]
    exact hmdlen
  · intro m hm
    rw [List.mem_range, hsc.2.1] at hm
    rw [hoff1 m, hsc.2.2.2.2.1]
    exact hWF.offCap hm
  · intro m hm
    rw [List.mem_range, hsc.2.1] at hm
    have hg := hWF.geom hm
    by_cases hmN : m + 1 = s.number_of_blocks
    · rw [hsc.2.1, if_pos hmN, hoff1 m, hgap1 m, hsc.1]
      rw [if_pos hmN] at hg
      exact hg
    · rw [hsc.2.1, if_neg hmN, hoff1 m, hgap1 m, hoff1 (m + 1), hsc.1]
      rw [if_neg hmN] at hg
      exact hg
  · intro m hm hempty
    rw [List.mem_range, hsc.2.1] at hm
    rw [hstart1 m, hend1 m] at hempty
    rw [hgap1 m]
    exact hWF.emptyGap hm hempty
  · rw [hsc.2.2.2.2.2.2.2.2.1, sumLens_congr s _ hsc.2.1
      (fun m _ => by rw [blockLen, blockLen, hstart1 m, hend1 m])]
    exact hWF.counter

/-- The final insertion step of `try_insert`: writing the pair at the
block's end cell and trading one gap cell for it preserves well-formedness,
provided the block has a gap cell to trade. -/
theorem insert_tail_wf (s : SlickHash) (bi k v : Nat) (hWF : WF s)
    (hbi : bi < s.number_of_blocks) (hgap : 1 ≤ (getMD s bi).gap) :
    WF (updMD { s with
      main_table := s.main_table.set (block_end s bi) (k, v),
      no_elements_in_main_table := s.no_elements_in_main_table + 1 }
      bi (fun md => { md with gap := md.gap - 1 })) := by
  obtain ⟨hbs, hms, hmo, hmt, hpos, hsz, htlen, hmdlen⟩ := hWF.fields
  have hchar := hWF.end_add_gap hbi
  have hse := hWF.start_le_end hbi
  set s' := updMD { s with
    main_table := s.main_table.set (block_end s bi) (k, v),
    no_elements_in_main_table := s.no_elements_in_main_table + 1 }
    bi (fun md => { md with gap := md.gap - 1 }) with hs'def
  have hNs : s'.number_of_blocks = s.number_of_blocks := rfl
  have hBs : s'.block_size = s.block_size := rfl
  have hMs : s'.main_table_size = s.main_table_size := rfl
  have hXs : s'.max_slick_size = s.max_slick_size := rfl
  have hOs : s'.max_offset = s.max_offset := rfl
  have hTs : s'.max_threshold = s.max_threshold := rfl
  have hCs : s'.no_elements_in_main_table = s.no_elements_in_main_table + 1 := rfl
  have hmd' : ∀ m, getMD s' m =
      if m = bi then { getMD s bi with gap := (getMD s bi).gap - 1 }
      else getMD s m := by
    intro m
    show (s.meta_data.set bi ((fun md => { md with gap := md.gap - 1 })
      (s.meta_data.getD bi ⟨0, 0, 0⟩))).getD m ⟨0, 0, 0⟩ = _
    rw [getD_set]
    by_cases hm : m = bi
    · rw [if_pos ⟨hm, by omega⟩, if_pos hm]
      exact rfl
    · rw [if_neg (fun hc => hm hc.1), if_neg hm]
      exact rfl
  have hoff' : ∀ m, (getMD s' m).offset = (getMD s m).offset := by
    intro m
    rw [hmd' m]
    by_cases hm : m = bi
    · rw [if_pos hm, md_setGap_offset, hm]
    · rw [if_neg hm]
  have hstart' : ∀ m, block_start s' m = block_start s m := by
    intro m
    rw [block_start, block_start, hBs, hoff' m]
  have hgeom' : ∀ m, m < s.number_of_blocks →
      (if m + 1 = s.number_of_blocks then
        (getMD s' m).offset + (getMD s' m).gap ≤ s.block_size
      else s.block_size * m + (getMD s' m).offset + (getMD s' m).gap ≤
        s.block_size * (m + 1) + (getMD s' (m + 1)).offset) := by
    intro m hm
    have hg := hWF.geom hm
    rw [hmd' m, hmd' (m + 1)]
    by_cases hmbi : m = bi
    · subst hmbi
      rw [if_pos rfl, if_neg (by omega : ¬ m + 1 = m)]
      by_cases hmN : m + 1 = s.number_of_blocks
      · rw [if_pos hmN]
        rw [if_pos hmN] at hg
        simp only [md_setGap_offset, md_setGap_gap]
        omega
      · rw [if_neg hmN]
        rw [if_neg hmN] at hg
        simp only [md_setGap_offset, md_setGap_gap]
        omega
    · rw [if_neg hmbi]
      by_cases hm1bi : m + 1 = bi
      · rw [if_pos hm1bi]
        by_cases hmN : m + 1 = s.number_of_blocks
        · rw [if_pos hmN]
          rw [if_pos hmN] at hg
          exact hg
        · rw [if_neg hmN]
          rw [if_neg hmN] at hg
          rw [md_setGap_offset, ← hm1bi]
          exact hg
      · rw [if_neg hm1bi]
        exact hg
  have hgeomwf : ∀ m, m < s'.number_of_blocks →
      (if m + 1 = s'.number_of_blocks then
        (getMD s' m).offset + (getMD s' m).gap ≤ s'.block_size
      else s'.block_size * m + (getMD s' m).offset + (getMD s' m).gap ≤
        s'.block_size * (m + 1) + (getMD s' (m + 1)).offset) := by
    intro m hm
    rw [hNs] at hm
    rw [hNs, hBs]
    exact hgeom' m hm
  have hchar' := block_end_add_gap s' bi (hgeomwf bi (by rw [hNs]; exact hbi))
    (by rw [hNs]; exact hbi) (by rw [hMs, hBs, hNs]; exact hsz)
  rw [hNs, hMs, hBs] at hchar'
  have hendbi' : block_end s' bi = block_end s bi + 1 := by
    rw [hmd' bi, if_pos rfl] at hchar'
    simp only [md_setGap_gap] at hchar'
    by_cases hmN : bi + 1 = s.number_of_blocks
    · rw [if_pos hmN] at hchar' hchar
      omega
    · rw [if_neg hmN] at hchar' hchar
      rw [hmd' (bi + 1), if_neg (by omega : ¬ bi + 1 = bi)] at hchar'
      omega
  have hend' : ∀ m, m < s.number_of_blocks → m ≠ bi →
      block_end s' m = block_end s m := by
    intro m hm hmbi
    rw [block_end, block_end, hNs, hMs, hBs, hmd' m, hmd' (m + 1), if_neg hmbi]
    by_cases hm1 : m + 1 = bi
    · rw [if_pos hm1]
      simp only [md_setGap_offset]
      rw [← hm1]
    · rw [if_neg hm1]
  refine ⟨hBs.trans hbs, hXs.trans hms, hOs.trans hmo, hTs.trans hmt, ?_, ?_,
    ?_, ?_, ?_, ?_, ?_, ?_⟩
  · rw [hNs]
    exact hpos
  · rw [hMs, hBs, hNs]
    exact hsz
  · show (s.main_table.set (block_end s bi) (k, v)).length = s.main_table_size
    rw [List.length_set]
    exact htlen
  · show (s.meta_data.set bi ((fun md => { md with gap := md.gap - 1 })
      (s.meta_data.getD bi ⟨0, 0, 0⟩))).length = s.number_of_blocks
    rw [List.length_set]
    exact hmdlen
  · intro m hm
    rw [List.mem_range, hNs] at hm
    rw [hoff' m, hOs]
    exact hWF.offCap hm
  · intro m hm
    exact hgeomwf m (List.mem_range.1 hm)
  · intro m hm hempty
    rw [List.mem_range, hNs] at hm
    rw [hmd' m]
    by_cases hmbi : m = bi
    · subst hmbi
      rw [hstart' m, hendbi'] at hempty
      exfalso
      omega
    · rw [if_neg hmbi]
      rw [hstart' m, hend' m hm hmbi] at hempty
      exact hWF.emptyGap hm hempty
  · rw [hCs]
    have hinc : sumLens s' = sumLens s + 1 := by
      refine sumLens_inc s s' bi hNs hbi ?_ ?_
      · intro m hm hmbi
        rw [blockLen, blockLen, hstart' m, hend' m hm hmbi]
      · rw [blockLen, blockLen, hstart' bi, hendbi']
        omega
    rw [hinc, hWF.counter]

/-- The found-key removal step of `remove_entry`: overwriting the found cell
with the block's last cell, growing the gap and decrementing the counter
preserves well-formedness, provided the key was found in the block range. -/
theorem remove_found_wf (s : SlickHash) (bi t k : Nat) (hWF : WF s)
    (hbi : bi < s.number_of_blocks) (hfm : firstMatch s bi k = some t) :
    WF { updMD { s with
      main_table := s.main_table.set (block_start s bi + t)
        (cell s (block_end s bi - 1)) }
      bi (fun md => { md with gap := md.gap + 1 }) with
      no_elements_in_main_table := s.no_elements_in_main_table - 1 } := by
  obtain ⟨hbs, hms, hmo, hmt, hpos, hsz, htlen, hmdlen⟩ := hWF.fields
  have hchar := hWF.end_add_gap hbi
  have hse := hWF.start_le_end hbi
  have htlt : t < blockLen s bi := by
    have := List.mem_range.1 (List.mem_of_find?_eq_some hfm)
    exact this
  have hlenpos : block_start s bi < block_end s bi := by
    rw [blockLen] at htlt
    omega
  set s' := { updMD { s with
    main_table := s.main_table.set (block_start s bi + t)
      (cell s (block_end s bi - 1)) }
    bi (fun md => { md with gap := md.gap + 1 }) with
    no_elements_in_main_table := s.no_elements_in_main_table - 1 } with hs'def
  have hNs : s'.number_of_blocks = s.number_of_blocks := rfl
  have hBs : s'.block_size = s.block_size := rfl
  have hMs : s'.main_table_size = s.main_table_size := rfl
  have hXs : s'.max_slick_size = s.max_slick_size := rfl
  have hOs : s'.max_offset = s.max_offset := rfl
  have hTs : s'.max_threshold = s.max_threshold := rfl
  have hCs : s'.no_elements_in_main_table = s.no_elements_in_main_table - 1 := rfl
  have hmd' : ∀ m, getMD s' m =
      if m = bi then { getMD s bi with gap := (getMD s bi).gap + 1 }
      else getMD s m := by
    intro m
    show (s.meta_data.set bi ((fun md => { md with gap := md.gap + 1 })
      (s.meta_data.getD bi ⟨0, 0, 0⟩))).getD m ⟨0, 0, 0⟩ = _
    rw [getD_set]
    by_cases hm : m = bi
    · rw [if_pos ⟨hm, by omega⟩, if_pos hm]
      exact rfl
    · rw [if_neg (fun hc => hm hc.1), if_neg hm]
      exact rfl
  have hoff' : ∀ m, (getMD s' m).offset = (getMD s m).offset := by
    intro m
    rw [hmd' m]
    by_cases hm : m = bi
    · rw [if_pos hm, md_setGap_offset, hm]
    · rw [if_neg hm]
  have hstart' : ∀ m, block_start s' m = block_start s m := by
    intro m
    rw [block_start, block_start, hBs, hoff' m]
  have hgeom' : ∀ m, m < s.number_of_blocks →
      (if m + 1 = s.number_of_blocks then
        (getMD s' m).offset + (getMD s' m).gap ≤ s.block_size
      else s.block_size * m + (getMD s' m).offset + (getMD s' m).gap ≤
        s.block_size * (m + 1) + (getMD s' (m + 1)).offset) := by
    intro m hm
    have hg := hWF.geom hm
    rw [hmd' m, hmd' (m + 1)]
    by_cases hmbi : m = bi
    · subst hmbi
      have hjl : s.block_size * m + (getMD s m).offset < block_end s m := by
        rw [block_start] at hlenpos
        exact hlenpos
      rw [if_pos rfl, if_neg (by omega : ¬ m + 1 = m)]
      by_cases hmN : m + 1 = s.number_of_blocks
      · rw [if_pos hmN]
        rw [if_pos hmN] at hg hchar
        rw [hsz, hbs] at hchar
        simp only [md_setGap_offset, md_setGap_gap]
        rw [hbs] at hg hjl ⊢
        omega
      · rw [if_neg hmN]
        rw [if_neg hmN] at hg hchar
        simp only [md_setGap_offset, md_setGap_gap]
        rw [hbs] at hg hchar hjl ⊢
        omega
    · rw [if_neg hmbi]
      by_cases hm1bi : m + 1 = bi
      · rw [if_pos hm1bi]
        by_cases hmN : m + 1 = s.number_of_blocks
        · rw [if_pos hmN]
          rw [if_pos hmN] at hg
          exact hg
        · rw [if_neg hmN]
          rw [if_neg hmN] at hg
          rw [md_setGap_offset, ← hm1bi]
          exact hg
      · rw [if_neg hm1bi]
        exact hg
  have hgeomwf : ∀ m, m < s'.number_of_blocks →
      (if m + 1 = s'.number_of_blocks then
        (getMD s' m).offset + (getMD s' m).gap ≤ s'.block_size
      else s'.block_size * m + (getMD s' m).offset + (getMD s' m).gap ≤
        s'.block_size * (m + 1) + (getMD s' (m + 1)).offset) := by
    intro m hm
    rw [hNs] at hm
    rw [hNs, hBs]
    exact hgeom' m hm
  have hchar' := block_end_add_gap s' bi (hgeomwf bi (by rw [hNs]; exact hbi))
    (by rw [hNs]; exact hbi) (by rw [hMs, hBs, hNs]; exact hsz)
  rw [hNs, hMs, hBs] at hchar'
  have hendbi' : block_end s' bi + 1 = block_end s bi := by
    rw [hmd' bi, if_pos rfl] at hchar'
    simp only [md_setGap_gap] at hchar'
    by_cases hmN : bi + 1 = s.number_of_blocks
    · rw [if_pos hmN] at hchar' hchar
      omega
    · rw [if_neg hmN] at hchar' hchar
      rw [hmd' (bi + 1), if_neg (by omega : ¬ bi + 1 = bi)] at hchar'
      omega
  have hend' : ∀ m, m < s.number_of_blocks → m ≠ bi →
      block_end s' m = block_end s m := by
    intro m hm hmbi
    rw [block_end, block_end, hNs, hMs, hBs, hmd' m, hmd' (m + 1), if_neg hmbi]
    by_cases hm1 : m + 1 = bi
    · rw [if_pos hm1]
      simp only [md_setGap_offset]
      rw [← hm1]
    · rw [if_neg hm1]
  refine ⟨hBs.trans hbs, hXs.trans hms, hOs.trans hmo, hTs.trans hmt, ?_, ?_,
    ?_, ?_, ?_, ?_, ?_, ?_⟩
  · rw [hNs]
    exact hpos
  · rw [hMs, hBs, hNs]
    exact hsz
  · show (s.main_table.set (block_start s bi + t)
      (cell s (block_end s bi - 1))).length = s.main_table_size
    rw [List.length_set]
    exact htlen
  · show (s.meta_data.set bi ((fun md => { md with gap := md.gap + 1 })
      (s.meta_data.getD bi ⟨0, 0, 0⟩))).length = s.number_of_blocks
    rw [List.length_set]
    exact hmdlen
  · intro m hm
    rw [List.mem_range, hNs] at hm
    rw [hoff' m, hOs]
    exact hWF.offCap hm
  · intro m hm
    exact hgeomwf m (List.mem_range.1 hm)
  · intro m hm hempty
    rw [List.mem_range, hNs] at hm
    rw [hmd' m]
    by_cases hmbi : m = bi
    · rw [if_pos hmbi]
      simp only [md_setGap_gap]
      omega
    · rw [if_neg hmbi]
      rw [hstart' m, hend' m hm hmbi] at hempty
      exact hWF.emptyGap hm hempty
  · rw [hCs]
    have hdec : sumLens s' + 1 = sumLens s := by
      refine sumLens_dec s s' bi hNs hbi ?_ ?_
      · intro m hm hmbi
        rw [blockLen, blockLen, hstart' m, hend' m hm hmbi]
      · rw [blockLen, blockLen, hstart' bi]
        omega
    have hcnt := hWF.counter
    have hge : blockLen s bi ≤ sumLens s := sumLens_ge_block s bi hbi
    rw [blockLen] at hge
    omega

end SlickHash
namespace SlickHash

/-- The Bumper preserves well-formedness and the block count, and whenever
it reports `none` (the incoming pair stays in the main table) it leaves at
least one gap cell in the bumped block: a `none` answer means the new
threshold sits just above the block's minimum entry hash, so that entry was
evicted. -/
theorem bump_spec (ht : Nat → Nat) (s : SlickHash) (bi k v : Nat)
    (hWF : WF s) (hbi : bi < s.number_of_blocks) (hht : ht k < 2 ^ 64) :
    WF (bump ht s bi (block_start s bi) k v).2 ∧
    (bump ht s bi (block_start s bi) k v).2.number_of_blocks =
      s.number_of_blocks ∧
    ((bump ht s bi (block_start s bi) k v).1 = none →
      1 ≤ (getMD (bump ht s bi (block_start s bi) k v).2 bi).gap) := by
  obtain ⟨hbs, hms, hmo, hmt, hpos, hsz, htlen, hmdlen⟩ := hWF.fields
  have hbilen : bi < s.meta_data.length := by omega
  set m0 := minThresholdHash ht s bi with hm0def
  set mth := (if hash_threshold ht s k < m0 then hash_threshold ht s k else m0)
    with hmthdef
  set t' := mth + 1 with htpdef
  set s1 := updMD s bi (fun md => { md with threshold := t' }) with hs1def
  set s2 := bumpLoop ht (block_end s1 bi - block_start s bi) s1 bi
    (block_start s bi) t' with hs2def
  have hWF1 : WF s1 := WF_updThr s bi t' hWF
  have hsc1 := updMD_scalars s bi (fun md => { md with threshold := t' })
  rw [← hs1def] at hsc1
  have hoff1 : ∀ m, (getMD s1 m).offset = (getMD s m).offset := by
    intro m
    rw [hs1def, getMD_updMD]
    by_cases h : m = bi ∧ bi < s.meta_data.length
    · rw [if_pos h, md_setThreshold_offset, h.1]
    · rw [if_neg h]
  have hgap1 : ∀ m, (getMD s1 m).gap = (getMD s m).gap := by
    intro m
    rw [hs1def, getMD_updMD]
    by_cases h : m = bi ∧ bi < s.meta_data.length
    · rw [if_pos h, md_setThreshold_gap, h.1]
    · rw [if_neg h]
  have hstart1 : ∀ m, block_start s1 m = block_start s m := by
    intro m
    rw [block_start, block_start, hsc1.1, hoff1 m]
  have hend1 : ∀ m, block_end s1 m = block_end s m := by
    intro m
    rw [block_end, block_end, hsc1.2.1, hsc1.2.2.1, hsc1.1, hoff1 (m + 1), hgap1 m]
  have hspec := bumpLoop_spec ht bi t' (block_end s1 bi - block_start s bi) s1
    (block_start s bi) hWF1 (by rw [hsc1.2.1]; exact hbi)
    (Nat.le_of_eq (hstart1 bi)) rfl
    (by
      intro idx h1 h2
      rw [hstart1 bi] at h1
      omega)
  rw [← hs2def] at hspec
  obtain ⟨hWF2, hmd2, hoff2, hthr2, hgap2, hbs2, hN2, hms2, hmx2, hmo2, hmt2, htl2,
    hscan2, hcontent2, hby2, hevid2⟩ := hspec
  have hbump : bump ht s bi (block_start s bi) k v =
      if hash_threshold ht s2 k < t' then
        (some (insert_into_backyard s2 k v).1, (insert_into_backyard s2 k v).2)
      else (none, s2) := rfl
  rw [hbump]
  by_cases hc : hash_threshold ht s2 k < t'
  · rw [if_pos hc]
    have hfrB := insert_into_backyard_frame s2 k v
    refine ⟨iib_WF s2 k v hWF2, ?_, ?_⟩
    · show (insert_into_backyard s2 k v).2.number_of_blocks = s.number_of_blocks
      rw [hfrB.2.2.2.2.1, hN2, hsc1.2.1]
    · intro hnone
      exact Option.noConfusion hnone
  · rw [if_neg hc]
    refine ⟨hWF2, hN2.trans hsc1.2.1, ?_⟩
    intro _
    have hckge : t' ≤ hash_threshold ht s k := by
      have heq : hash_threshold ht s2 k = hash_threshold ht s k :=
        hash_threshold_congr ht s s2 (hmt2.trans hsc1.2.2.2.2.2.1) k
      omega
    have hmth : mth = m0 := by
      by_cases h : hash_threshold ht s k < m0
      · exfalso
        have hmth' : mth = hash_threshold ht s k := by
          rw [hmthdef, if_pos h]
        omega
      · rw [hmthdef, if_neg h]
    have hm0lt : m0 < hash_threshold ht s k := by omega
    have hHle : hash_threshold ht s k ≤ s.max_threshold :=
      hash_threshold_le_max (Nat.le_of_lt hht) (by rw [hmt]; norm_num)
    rcases foldl_min_achieved (fun p => hash_threshold ht s p.1) (blockSlice s bi)
        (s.max_threshold + 1) with hach | ⟨p, hp, hach⟩
    · exfalso
      have hm0top : m0 = s.max_threshold + 1 := hach
      omega
    · have hpm : m0 = hash_threshold ht s p.1 := hach
      obtain ⟨a, ha, hpa⟩ := List.mem_map.1 hp
      rw [List.mem_range, blockLen] at ha
      have hse := hWF.start_le_end hbi
      have hlt : hash_threshold ht s (cell s (block_start s bi + a)).1 < t' := by
        rw [hpa, ← hpm]
        omega
      exact hevid2 ⟨block_start s bi + a, Nat.le_add_right _ _,
        (by rw [hend1 bi]; omega), hlt⟩

/-- `try_insert` preserves well-formedness, for keys whose 64-bit hashes are
in the safe range (below the top `2^10` values that panic the block-index
scaling, and within `u64` for the threshold hash). -/
theorem try_insert_WF (hb ht : Nat → Nat) (s : SlickHash) (k v : Nat)
    (hWF : WF s) (hhb : hb k < 2 ^ 64 - 2 ^ 10) (hht : ht k < 2 ^ 64) :
    WF (try_insert hb ht s k v).2 := by
  obtain ⟨hbs, hms, hmo, hmt, hpos, hsz, htlen, hmdlen⟩ := hWF.fields
  have hbi : hash_block_index hb s k < s.number_of_blocks := f64ScaleMul_lt hhb hpos
  by_cases hroute : hash_threshold ht s k <
      (getMD s (hash_block_index hb s k)).threshold
  · simp only [try_insert]
    rw [if_pos hroute]
    exact iib_WF s k v hWF
  · simp only [try_insert]
    rw [if_neg hroute]
    cases hfm : (if 0 < block_end s (hash_block_index hb s k) -
        block_start s (hash_block_index hb s k) then
        firstMatch s (hash_block_index hb s k) k else none) with
    | some t =>
      exact hWF
    | none =>
      rcases hts : there_is_no_space s
          (block_end s (hash_block_index hb s k) -
            block_start s (hash_block_index hb s k))
          (hash_block_index hb s k) with ⟨ns, s1⟩
      cases ns
      · dsimp only
        rw [if_neg (by exact Bool.false_ne_true)]
        obtain ⟨hWF1, hg1, hN1⟩ := there_is_no_space_false_spec s _ _ s1 hWF hbi hts
        exact insert_tail_wf s1 (hash_block_index hb s k) k v hWF1
          (by rw [hN1]; exact hbi) hg1
      · dsimp only
        rw [if_pos rfl]
        have hs1 := there_is_no_space_true_id s _ _ s1 hts
        subst hs1
        rcases hbmp : bump ht s1 (hash_block_index hb s1 k)
            (block_start s1 (hash_block_index hb s1 k)) k v with ⟨orr, s2⟩
        obtain ⟨hWFb, hNb, hgapb⟩ := bump_spec ht s1 (hash_block_index hb s1 k) k v
          hWF hbi hht
        have h2 : (bump ht s1 (hash_block_index hb s1 k)
            (block_start s1 (hash_block_index hb s1 k)) k v).2 = s2 :=
          congrArg Prod.snd hbmp
        have h1 : (bump ht s1 (hash_block_index hb s1 k)
            (block_start s1 (hash_block_index hb s1 k)) k v).1 = orr :=
          congrArg Prod.fst hbmp
        cases orr
        · dsimp only
          have hW2 : WF s2 := by
            rw [← h2]
            exact hWFb
          have hg2 : 1 ≤ (getMD s2 (hash_block_index hb s1 k)).gap := by
            rw [← h2]
            exact hgapb h1
          have hN2 : s2.number_of_blocks = s1.number_of_blocks := by
            rw [← h2]
            exact hNb
          exact insert_tail_wf s2 (hash_block_index hb s1 k) k v hW2
            (by rw [hN2]; exact hbi) hg2
        · dsimp only
          show WF s2
          rw [← h2]
          exact hWFb

/-- `remove_entry` preserves well-formedness, for keys whose 64-bit block
hash is in the safe range. -/
theorem remove_entry_WF (hb ht : Nat → Nat) (s : SlickHash) (k : Nat)
    (hWF : WF s) (hhb : hb k < 2 ^ 64 - 2 ^ 10) :
    WF (remove_entry hb ht s k).2 := by
  have hpos := hWF.fields.2.2.2.2.1
  have hbi : hash_block_index hb s k < s.number_of_blocks := f64ScaleMul_lt hhb hpos
  by_cases hroute : hash_threshold ht s k <
      (getMD s (hash_block_index hb s k)).threshold
  · simp only [remove_entry]
    rw [if_pos hroute]
    rcases hbr : byRemove s.backyard k with ⟨r0, b0⟩
    dsimp only
    have hWF0 : WF { s with backyard := b0 } :=
      WF_frame s _ hWF rfl rfl rfl rfl rfl rfl rfl rfl rfl
    cases hfm : firstMatch { s with backyard := b0 }
        (hash_block_index hb s k) k with
    | none =>
      exact hWF0
    | some t =>
      exact remove_found_wf { s with backyard := b0 } (hash_block_index hb s k)
        t k hWF0 hbi hfm
  · simp only [remove_entry]
    rw [if_neg hroute]
    dsimp only
    cases hfm : firstMatch s (hash_block_index hb s k) k with
    | none =>
      exact hWF
    | some t =>
      exact remove_found_wf s (hash_block_index hb s k) t k hWF hbi hfm

/-- Every state reachable by the public operations from a well-sized
construction is well-formed, as long as the hash functions stay below the
`f64` panic range on block indices and within `u64` on threshold hashes. -/
theorem reachable_WF (hb ht : Nat → Nat) (s : SlickHash)
    (hhb : ∀ x, hb x < 2 ^ 64 - 2 ^ 10) (hht : ∀ x, ht x < 2 ^ 64)
    (hreach : Reachable hb ht s) : WF s := by
  induction hreach with
  | constructed c s hpos hnew => exact new_WF c s hpos hnew
  | inserted s k v hs ih => exact try_insert_WF hb ht s k v ih (hhb k) (hht k)
  | removed s k hs ih => exact remove_entry_WF hb ht s k ih (hhb k)

end SlickHash
namespace SlickHash

/-- **C7.**  In every state reachable by the public mutating operations
(construction, `try_insert`, `remove_entry` — `get` takes `&self` and cannot
change the state), the counter `no_elements_in_main_table` equals
`Σᵢ (end(i) − start(i))` (the definition `sumLens`): the insert,
bump-eviction and remove paths each adjust the counter and the gaps in
lock-step.  The hash functions are assumed to stay below the `f64` panic
range on block indices and within `u64` on threshold hashes. -/
theorem c7_counter_invariant (hb ht : Nat → Nat) (s : SlickHash)
    (hhb : ∀ x, hb x < 2 ^ 64 - 2 ^ 10) (hht : ∀ x, ht x < 2 ^ 64)
    (hreach : Reachable hb ht s) :
    s.no_elements_in_main_table = sumLens s :=
  (reachable_WF hb ht s hhb hht hreach).counter

/-- Witness for C7 on the state reached by inserting `(7, 700)` into a fresh
100-cell table with both hashes constant 0. -/
theorem c7_witness :
    (try_insert hashZero hashZero exampleTable100 7 700).2.no_elements_in_main_table =
      sumLens (try_insert hashZero hashZero exampleTable100 7 700).2 :=
  c7_counter_invariant hashZero hashZero
    (try_insert hashZero hashZero exampleTable100 7 700).2
    (fun x => (by decide : (0 : Nat) < 2 ^ 64 - 2 ^ 10))
    (fun x => (by decide : (0 : Nat) < 2 ^ 64))
    (Reachable.inserted exampleTable100 7 700
      (Reachable.constructed 100 exampleTable100 (by decide) (by decide)))

/-- **C10.**  In every reachable state, every empty block (`start(i) =
end(i)`) keeps at least one gap cell; consequently, whenever `try_insert`
enters the no-space path (the Bumper), the bumped block is non-empty and the
source's assertion `min_threshold_hash < max_threshold + 1` holds: the
minimum-fold over the block's entries finds an entry hash, and every entry
hash is at most `max_threshold`. -/
theorem c10_empty_gap_bumper_assert (hb ht : Nat → Nat) (s : SlickHash)
    (hhb : ∀ x, hb x < 2 ^ 64 - 2 ^ 10) (hht : ∀ x, ht x < 2 ^ 64)
    (hreach : Reachable hb ht s) :
    (∀ i, i < s.number_of_blocks → block_start s i = block_end s i →
      1 ≤ (getMD s i).gap) ∧
    (∀ k s1, there_is_no_space s
        (blockLen s (hash_block_index hb s k))
        (hash_block_index hb s k) = (true, s1) →
      minThresholdHash ht s1 (hash_block_index hb s k) <
        s1.max_threshold + 1) := by
  have hWF := reachable_WF hb ht s hhb hht hreach
  constructor
  · intro i hi hempty
    exact hWF.emptyGap hi hempty
  · intro k s1 hts
    have hs1 : s1 = s := there_is_no_space_true_id s _ _ s1 hts
    subst hs1
    have hbi : hash_block_index hb s1 k < s1.number_of_blocks :=
      f64ScaleMul_lt (hhb k) hWF.fields.2.2.2.2.1
    have hse := hWF.start_le_end hbi
    have hlen : 0 < blockLen s1 (hash_block_index hb s1 k) := by
      rcases there_is_no_space_true_cases s1 _ _ s1 hts with hcap | hgap0
      · have hms := hWF.fields.2.1
        omega
      · by_cases hz : 0 < blockLen s1 (hash_block_index hb s1 k)
        · exact hz
        · exfalso
          have hempty : block_start s1 (hash_block_index hb s1 k) =
              block_end s1 (hash_block_index hb s1 k) := by
            rw [blockLen] at hz
            omega
          have := hWF.emptyGap hbi hempty
          omega
    have hmem : cell s1 (block_start s1 (hash_block_index hb s1 k)) ∈
        blockSlice s1 (hash_block_index hb s1 k) := by
      rw [blockSlice]
      exact List.mem_map.2 ⟨0, List.mem_range.2 hlen, by rw [Nat.add_zero]⟩
    have hle : minThresholdHash ht s1 (hash_block_index hb s1 k) ≤
        hash_threshold ht s1
          (cell s1 (block_start s1 (hash_block_index hb s1 k))).1 :=
      foldl_min_le_elem (fun p => hash_threshold ht s1 p.1)
        (blockSlice s1 (hash_block_index hb s1 k)) (s1.max_threshold + 1) _ hmem
    have hHle : hash_threshold ht s1
        (cell s1 (block_start s1 (hash_block_index hb s1 k))).1 ≤
        s1.max_threshold :=
      hash_threshold_le_max (Nat.le_of_lt (hht _))
        (by rw [hWF.fields.2.2.2.1]; norm_num)
    omega

/-- Witness for C10 on a fresh 100-cell table with both hashes constant 0. -/
theorem c10_witness :
    (∀ i, i < exampleTable100.number_of_blocks →
      block_start exampleTable100 i = block_end exampleTable100 i →
      1 ≤ (getMD exampleTable100 i).gap) ∧
    (∀ k s1, there_is_no_space exampleTable100
        (blockLen exampleTable100 (hash_block_index hashZero exampleTable100 k))
        (hash_block_index hashZero exampleTable100 k) = (true, s1) →
      minThresholdHash hashZero s1 (hash_block_index hashZero exampleTable100 k) <
        s1.max_threshold + 1) :=
  c10_empty_gap_bumper_assert hashZero hashZero exampleTable100
    (fun x => (by decide : (0 : Nat) < 2 ^ 64 - 2 ^ 10))
    (fun x => (by decide : (0 : Nat) < 2 ^ 64))
    (Reachable.constructed 100 exampleTable100 (by decide) (by decide))

end SlickHash
